import Mathlib

/-!
Shallow embedding of `src/preprocessing/automate_Vioart.py`, a five-stage
pandas preprocessing pipeline over a tabular dataset: prune near-constant
columns, fill missing values, normalize text columns, and build a
`content_soup` column.  Strings are modelled as lists of characters; the
character classes of Python (`\w`, `\s`, `str.lower`) are modelled
exactly on every code point up to U+00FF (Basic Latin and Latin-1
Supplement); code points above U+00FF are outside the model's alphabet.
Exact rational arithmetic stands in for the float division performed by
`value_counts(normalize=True)`.
-/

namespace Automate

/-- Cell values are strings, modelled as lists of characters. -/
abbrev Val := List Char

/-- A cell of the table: `none` models a pandas missing value (NaN/NaT). -/
abbrev Cell := Option Val

/-- One row of the table: ordered association of column name to cell. -/
abbrev Row := List (String × Cell)

/-- The record table (pandas `DataFrame`): column order plus row list. -/
structure Table where
  cols : List String
  rows : List Row
deriving DecidableEq

deriving instance DecidableEq for Except

/-- Convenience: a string literal as a character list. -/
def strL (s : String) : Val := s.toList

/-- Python regex `\w` (Unicode word character), exact on code points up
to U+00FF: ASCII alphanumerics and underscore, plus the Latin-1
Supplement alphanumerics `ª²³µ¹º¼½¾`, `À`-`Ö`, `Ø`-`ö` and `ø`-`ÿ`. -/
def isWordChar (c : Char) : Bool :=
  ('a' ≤ c && c ≤ 'z') || ('A' ≤ c && c ≤ 'Z') || ('0' ≤ c && c ≤ '9') || c = '_' ||
  c.toNat = 170 || c.toNat = 178 || c.toNat = 179 || c.toNat = 181 ||
  c.toNat = 185 || c.toNat = 186 || (188 ≤ c.toNat && c.toNat ≤ 190) ||
  (192 ≤ c.toNat && c.toNat ≤ 214) || (216 ≤ c.toNat && c.toNat ≤ 246) ||
  (248 ≤ c.toNat && c.toNat ≤ 255)

/-- Python regex `\s` (which agrees with `str.isspace`, used by
`split`/`strip`), exact on code points up to U+00FF: space, tab,
newline, VT, FF, CR, the separator controls U+001C-U+001F, NEL U+0085
and NBSP U+00A0. -/
def isPySpace (c : Char) : Bool :=
  c = ' ' || c = '\t' || c = '\n' || c = '\r' || c.toNat = 11 || c.toNat = 12 ||
  (28 ≤ c.toNat && c.toNat ≤ 31) || c.toNat = 133 || c.toNat = 160

/-- ASCII alphabetic character, regex `[a-zA-Z]`. -/
def isAsciiAlpha (c : Char) : Bool :=
  ('a' ≤ c && c ≤ 'z') || ('A' ≤ c && c ≤ 'Z')

/-- Python `str.lower`, exact on code points up to U+00FF: the only
characters lowering there are `A`-`Z` and `À`-`Þ` except `×`, each
mapping to the code point 32 higher. -/
def lowerChar (c : Char) : Char :=
  if ('A' ≤ c && c ≤ 'Z') || (192 ≤ c.toNat && c.toNat ≤ 222 && c.toNat ≠ 215) then
    Char.ofNat (c.toNat + 32)
  else c

/-- Normalizer step 1, `re.sub(r'\W', ' ', text)`: every non-word
character becomes one space. -/
def std1 (l : Val) : Val := l.map (fun c => if isWordChar c then c else ' ')

/-- Does the list start with a character satisfying `p`? -/
def headIs (p : Char → Bool) (l : Val) : Bool :=
  match l with
  | [] => false
  | c :: _ => p c

/-- One attempt of the pattern `\s+[a-zA-Z]\s+` anchored at the head of
the list (greedy runs, as Python matches it): on success returns the
remainder after the match. -/
def matchIso (l : Val) : Option Val :=
  if headIs isPySpace l then
    if headIs isAsciiAlpha (l.dropWhile isPySpace) then
      if headIs isPySpace (l.dropWhile isPySpace).tail then
        some ((l.dropWhile isPySpace).tail.dropWhile isPySpace)
      else none
    else none
  else none

/-- Step 2 with explicit fuel (the match consumes at least one character,
so `l.length` steps always suffice; the fuel keeps the recursion
structural and hence computable by the kernel). -/
def sub2F : Nat → Val → Val
  | _, [] => []
  | 0, l => l
  | fuel + 1, c :: rest =>
    match matchIso (c :: rest) with
    | some r => ' ' :: sub2F fuel r
    | none => c :: sub2F fuel rest

/-- Normalizer step 2, `re.sub(r'\s+[a-zA-Z]\s+', ' ', text)`: Python's
left-to-right non-overlapping substitution. -/
def sub2 (l : Val) : Val := sub2F l.length l

/-- Normalizer step 3, `re.sub(r'^[a-zA-Z]\s+', ' ', text)`: a leading
alphabetic character followed by a whitespace run is replaced by one
space. -/
def sub3 (l : Val) : Val :=
  if headIs isAsciiAlpha l && headIs isPySpace l.tail then
    ' ' :: l.tail.dropWhile isPySpace
  else l

/-- Step 4 with explicit fuel (each step consumes at least one
character, so `l.length` steps suffice). -/
def collapseF : Nat → Val → Val
  | _, [] => []
  | 0, l => l
  | fuel + 1, c :: rest =>
    if isPySpace c then ' ' :: collapseF fuel (rest.dropWhile isPySpace)
    else c :: collapseF fuel rest

/-- Normalizer step 4, `re.sub(r'\s+', ' ', text, flags=re.I)`: each
whitespace run collapses to one space (the flag is irrelevant). -/
def collapseWs (l : Val) : Val := collapseF l.length l

/-- Normalizer step 5, `re.sub(r'^b\s+', '', text)`: a leading `b`
followed by a whitespace run is deleted. -/
def sub5 (l : Val) : Val :=
  if headIs (fun c => c == 'b') l && headIs isPySpace l.tail then
    l.tail.dropWhile isPySpace
  else l

/-- Remove trailing whitespace (the right half of Python `str.strip`). -/
def stripR (l : Val) : Val :=
  match l with
  | [] => []
  | c :: rest =>
    match stripR rest with
    | [] => if isPySpace c then [] else [c]
    | d :: r => c :: d :: r

/-- Python `str.strip`: drop leading and trailing whitespace. -/
def pyStrip (l : Val) : Val := stripR (l.dropWhile isPySpace)

/-- `preprocess_individual_text` from the source: the six regex /
lower / strip steps in order. -/
def preprocess_individual_text (l : Val) : Val :=
  pyStrip ((sub5 (collapseWs (sub3 (sub2 (std1 l))))).map lowerChar)

/-- `str.replace(';', ' ')` on a cell value. -/
def semiRepl (l : Val) : Val := l.map (fun c => if c = ';' then ' ' else c)

/-- `str.split()` with explicit fuel. -/
def pySplitF : Nat → Val → List Val
  | _, [] => []
  | 0, l => [l]
  | fuel + 1, c :: rest =>
    if isPySpace c then pySplitF fuel rest
    else (c :: rest.takeWhile (fun d => !isPySpace d)) ::
         pySplitF fuel (rest.dropWhile (fun d => !isPySpace d))

/-- Python `str.split()` (no argument): whitespace-separated words,
empty words discarded. -/
def pySplit (l : Val) : List Val := pySplitF l.length l

/-- `' '.join(ws)`. -/
def joinSp (ws : List Val) : Val :=
  match ws with
  | [] => []
  | [w] => w
  | w :: x :: rest => w ++ ' ' :: joinSp (x :: rest)

/-- The list-like field treatment in `combine_text`:
`" ".join(field.replace(';', ' ').split())`. -/
def sjoin (l : Val) : Val := joinSp (pySplit (semiRepl l))

/-- The string built by the source's `combine_text` from the six field
values of one row. -/
def soupExpr (rn de sa ty ia ao : Val) : Val :=
  rn ++ ' ' :: de ++ ' ' :: sjoin sa ++ ' ' :: ty ++ ' ' :: sjoin ia ++ ' ' :: ao

/-- Row lookup by column name, pandas `row[name]`. -/
def rowGet (n : String) : Row → Option Cell
  | [] => none
  | p :: r => if p.1 = n then some p.2 else rowGet n r

/-- The cells of one named column, top to bottom. -/
def colCells (t : Table) (n : String) : List Cell :=
  t.rows.map (fun r => (rowGet n r).getD none)

/-- The non-missing values of a column (`value_counts` drops NaN). -/
def nonMissing (cells : List Cell) : List Val := cells.filterMap id

/-- The count of the single most frequent value (0 on an empty list). -/
def maxCount (vals : List Val) : Nat :=
  (vals.map (fun v => vals.count v)).foldr max 0

/-- `df[col].value_counts(normalize=True).max()`: the fraction of
non-missing cells holding the most frequent value, as an exact rational
(0 when every cell is missing, where pandas yields NaN). -/
def topFrac (cells : List Cell) : ℚ :=
  (maxCount (nonMissing cells) : ℚ) / ((nonMissing cells).length : ℚ)

/-- The near-constant test `top_pct > 0.95`, cleared of denominators
(false on an all-missing column, as `NaN > 0.95` is false);
`nearConstant_iff_topFrac` below identifies it with the fraction test. -/
def nearConstant (cells : List Cell) : Bool :=
  100 * maxCount (nonMissing cells) > 95 * (nonMissing cells).length

/-- The fixed metadata denylist. -/
def metadataCols : List String := ["record_modified", "resource_revised"]

/-- `df.drop(columns=names, errors='ignore')`. -/
def dropByNames (t : Table) (names : List String) : Table :=
  { cols := t.cols.filter (fun c => !(decide (c ∈ names)))
    rows := t.rows.map (fun r => r.filter (fun p => !(decide (p.1 ∈ names)))) }

/-- The `constant_cols` list accumulated by the source's loop. -/
def constantCols (t : Table) : List String :=
  t.cols.filter (fun c => nearConstant (colCells t c))

/-- `drop_constant_features` from the source: drop near-constant columns,
then the metadata denylist. -/
def drop_constant_features (t : Table) : Table :=
  dropByNames (dropByNames t (constantCols t)) metadataCols

/-- `fillna('')` on one cell. -/
def fillCell (c : Cell) : Cell := some (c.getD [])

/-- `fill_missing_values` from the source: `df.fillna('')`. -/
def fill_missing_values (t : Table) : Table :=
  { cols := t.cols
    rows := t.rows.map (fun r => r.map (fun p => (p.1, fillCell p.2))) }

/-- `str(cell)` as applied before normalization (Python `str(nan)`). -/
def cellStr (c : Cell) : Val := c.getD (strL "nan")

/-- `df[n] = df[n].apply(preprocess_individual_text)`. -/
def mapTextCol (t : Table) (n : String) : Table :=
  { cols := t.cols
    rows := t.rows.map (fun r => r.map (fun p =>
      if p.1 = n then (p.1, some (preprocess_individual_text (cellStr p.2))) else p)) }

/-- `preprocess_text_columns` from the source: each listed column is
processed when present and silently skipped otherwise. -/
def preprocess_text_columns (t : Table) (tcs : List String) : Table :=
  tcs.foldl (fun u n => if n ∈ u.cols then mapTextCol u n else u) t

/-- The six columns read by `combine_text`, the Soup Builder's required
source columns. -/
def soupColumns : List String :=
  ["resource_name", "description", "subject_areas", "type",
   "intended_audiences", "authoring_organization"]

/-- The `text_columns` list of `preprocess_data`. -/
def text_columns : List String :=
  ["resource_name", "description", "intended_audiences",
   "subject_areas", "type", "authoring_organization"]

/-- Abort conditions of the soup stage: `KeyError` on a missing column
(spec name `MissingColumnError`), `TypeError` on string operations
against a non-string (NaN) cell. -/
inductive PErr where
  | missingColumn
  | typeError
deriving DecidableEq

/-- One field access inside `combine_text`. -/
def getVal (n : String) (r : Row) : Except PErr Val :=
  match rowGet n r with
  | none => .error .missingColumn
  | some none => .error .typeError
  | some (some v) => .ok v

/-- `combine_text` from the source, field accesses in Python's
evaluation order. -/
def combine_text (r : Row) : Except PErr Val := do
  let sa ← getVal "subject_areas" r
  let ia ← getVal "intended_audiences" r
  let rn ← getVal "resource_name" r
  let de ← getVal "description" r
  let ty ← getVal "type" r
  let ao ← getVal "authoring_organization" r
  pure (soupExpr rn de sa ty ia ao)

/-- `df.apply(combine_text, axis=1)`: rows processed in order, first
failure aborts. -/
def mapExcept (f : Row → Except PErr Val) : List Row → Except PErr (List Val)
  | [] => .ok []
  | r :: rs => do
    let v ← f r
    let vs ← mapExcept f rs
    pure (v :: vs)

/-- Column assignment on one row: overwrite when present, else append. -/
def setRowCell (r : Row) (n : String) (v : Val) : Row :=
  if (rowGet n r).isSome then
    r.map (fun p => if p.1 = n then (p.1, some v) else p)
  else r ++ [(n, some v)]

/-- `create_content_soup` from the source. -/
def create_content_soup (t : Table) : Except PErr Table := do
  let soup ← mapExcept combine_text t.rows
  pure { cols := if "content_soup" ∈ t.cols then t.cols else t.cols ++ ["content_soup"]
         rows := List.zipWith (fun r v => setRowCell r "content_soup" v) t.rows soup }

/-- Stages 2-5 of `preprocess_data` on the loaded table. -/
def pipelineFromLoaded (t : Table) : Except PErr Table :=
  create_content_soup
    (preprocess_text_columns (fill_missing_values (drop_constant_features t)) text_columns)

/-- The table serialized to the output CSV; `to_csv` runs only after the
soup stage succeeded, so an aborted run writes nothing. -/
def writtenOutput (t : Table) : Option Table := (pipelineFromLoaded t).toOption

/-! Spec-side definitions, each written from the claim's own wording, to
be compared against the embedded source. -/

/-- The count of the column's single most frequent value when missing
cells are counted as a normal value. -/
def maxCountAll (cells : List Cell) : Nat :=
  (cells.map (fun v => cells.count v)).foldr max 0

/-- Written from the claim wording of C1: the top-value fraction with
missing treated as a normal value of the column. -/
def topFracWithMissing (cells : List Cell) : ℚ :=
  (maxCountAll cells : ℚ) / (cells.length : ℚ)

/-- Written from the claim wording of C4: `;` replaced by a space and
whitespace runs collapsed to single spaces (no trimming mentioned). -/
def sjoinClaim (l : Val) : Val := collapseWs (semiRepl l)

/-- The per-row soup value as claim C4 states it. -/
def specContentSoupClaim (rn de sa ty ia ao : Val) : Val :=
  rn ++ ' ' :: de ++ ' ' :: sjoinClaim sa ++ ' ' :: ty ++ ' ' :: sjoinClaim ia ++ ' ' :: ao

/-- The amended list-field transform: `;` to space, whitespace runs
collapsed to single spaces, and leading/trailing whitespace removed. -/
def sjoinAmended (l : Val) : Val := pyStrip (collapseWs (semiRepl l))

/-- The per-row soup value per the amended claim C4. -/
def specContentSoupAmended (rn de sa ty ia ao : Val) : Val :=
  rn ++ ' ' :: de ++ ' ' :: sjoinAmended sa ++ ' ' :: ty ++ ' ' :: sjoinAmended ia ++ ' ' :: ao

/-- Character allowed in normalizer output per claim C3: `[a-z0-9_ ]`. -/
def allowedChar (c : Char) : Bool :=
  ('a' ≤ c && c ≤ 'z') || ('0' ≤ c && c ≤ '9') || c = '_' || c = ' '

/-- No two adjacent spaces. -/
def noDbl : Val → Bool
  | [] => true
  | [_] => true
  | a :: b :: rest => !(a = ' ' && b = ' ') && noDbl (b :: rest)

/-- Claim C3's output format: only `[a-z0-9_ ]`, single separating
spaces, no leading or trailing whitespace. -/
def normalizedForm (l : Val) : Bool :=
  l.all allowedChar && noDbl l && !(l.head? == some ' ') && !(l.getLast? == some ' ')

/-- No occurrence of the isolated-letter pattern `\s+[a-zA-Z]\s+`. -/
def isoFree : Val → Bool
  | [] => true
  | c :: rest => (matchIso (c :: rest)).isNone && isoFree rest

/-- The string starts with an ASCII letter followed by whitespace
(pattern `^[a-zA-Z]\s+`). -/
def startsAlphaWs (l : Val) : Bool :=
  match l with
  | c :: d :: _ => isAsciiAlpha c && isPySpace d
  | _ => false

/-- Some whitespace-delimited token is a single ASCII letter. -/
def hasIsoLetterTok (l : Val) : Bool :=
  (pySplit l).any (fun w => w.length = 1 && w.all isAsciiAlpha)

def headIsSpace (l : Val) : Bool := l.head? == some ' '

def lastIsSpace (l : Val) : Bool := l.getLast? == some ' '

/-- After the fill stage every cell is a concrete value, and the text
stage keeps it so. -/
def rowAllSome (r : Row) : Prop := ∀ p ∈ r, p.2.isSome = true

/-- Cell access by row and column position. -/
def cellAt (t : Table) (i j : Nat) : Option (String × Cell) :=
  (t.rows[i]?).bind (fun r => r[j]?)

/-! Concrete tables and rows used by counterexamples and witnesses. -/

/-- A one-row association of the given columns to string values. -/
def mkRow (ps : List (String × String)) : Row := ps.map (fun p => (p.1, some (strL p.2)))

/-- One column `v`: twenty rows `x`, one row `y`, one missing row. -/
def tblSkew : Table :=
  { cols := ["v"]
    rows := (List.replicate 20 [("v", some (strL "x"))]) ++
            [[("v", some (strL "y"))], [("v", (none : Cell))]] }

/-- The C5 scenario row as a loaded table. -/
def tblScenario : Table :=
  { cols := ["resource_name", "description", "subject_areas", "type",
             "intended_audiences", "authoring_organization"]
    rows := [mkRow [("resource_name", "MedX!!"), ("description", "A great tool"),
                    ("subject_areas", "a;b;c"), ("type", "Video"),
                    ("intended_audiences", "students;nurses"),
                    ("authoring_organization", "ACME Corp")]] }

/-- A table with every required column except `description`. -/
def tblNoDesc : Table :=
  { cols := ["resource_name", "subject_areas", "type", "intended_audiences",
             "authoring_organization"]
    rows := [mkRow [("resource_name", "r"), ("subject_areas", "s"), ("type", "t"),
                    ("intended_audiences", "i"), ("authoring_organization", "o")]] }

/-- A row holding all six soup fields, `subject_areas` being `";a"`. -/
def rowSemi : Row :=
  mkRow [("resource_name", "n"), ("description", "d"), ("subject_areas", ";a"),
         ("type", "t"), ("intended_audiences", "i"), ("authoring_organization", "o")]

/-- A two-column table whose `v` column is entirely missing. -/
def tblAllMissing : Table :=
  { cols := ["v", "w"]
    rows := [[("v", (none : Cell)), ("w", some (strL "a"))],
             [("v", (none : Cell)), ("w", some (strL "b"))]] }

/-! Proof development. -/

theorem dropWhile_len_le (p : Char → Bool) (l : Val) :
    (l.dropWhile p).length ≤ l.length := by
  induction l with
  | nil => simp
  | cons c rest ih =>
    rw [List.dropWhile_cons]
    by_cases h : p c
    · simp only [h, if_true]; simp; omega
    · simp [h]

theorem matchIso_length {l r : Val} (h : matchIso l = some r) :
    r.length < l.length := by
  unfold matchIso at h
  by_cases h1 : headIs isPySpace l
  · rw [if_pos h1] at h
    by_cases h2 : headIs isAsciiAlpha (l.dropWhile isPySpace)
    · rw [if_pos h2] at h
      by_cases h3 : headIs isPySpace (l.dropWhile isPySpace).tail
      · rw [if_pos h3, Option.some_inj] at h
        subst h
        match l with
        | [] => simp [headIs] at h1
        | c :: t =>
          have e1 : (c :: t).dropWhile isPySpace = t.dropWhile isPySpace := by
            rw [List.dropWhile_cons, if_pos]
            simpa [headIs] using h1
          rw [e1]
          have l1 : (t.dropWhile isPySpace).length ≤ t.length := dropWhile_len_le _ _
          have l2 : ((t.dropWhile isPySpace).tail.dropWhile isPySpace).length ≤
              (t.dropWhile isPySpace).tail.length := dropWhile_len_le _ _
          have l3 : (t.dropWhile isPySpace).tail.length = (t.dropWhile isPySpace).length - 1 :=
            List.length_tail _
          simp only [List.length_cons]
          omega
      · rw [if_neg h3] at h; exact absurd h (by simp)
    · rw [if_neg h2] at h; exact absurd h (by simp)
  · rw [if_neg h1] at h; exact absurd h (by simp)

theorem sub2F_eq : ∀ (f1 : Nat) {f2 : Nat} {l : Val},
    l.length ≤ f1 → l.length ≤ f2 → sub2F f1 l = sub2F f2 l := by
  intro f1
  induction f1 with
  | zero =>
    intro f2 l h1 _
    have : l = [] := List.eq_nil_of_length_eq_zero (Nat.le_zero.mp h1)
    subst this
    cases f2 <;> rfl
  | succ f ih =>
    intro f2 l h1 h2
    match l with
    | [] => cases f2 <;> rfl
    | c :: rest =>
      match f2 with
      | 0 => simp at h2
      | g + 1 =>
        rcases hm : matchIso (c :: rest) with _ | r
        · simp only [sub2F, hm]
          simp only [List.length_cons] at h1 h2
          rw [@ih g rest (by omega) (by omega)]
        · have hr : r.length < (c :: rest).length := matchIso_length hm
          simp only [List.length_cons] at h1 h2 hr
          simp only [sub2F, hm]
          rw [@ih g r (by omega) (by omega)]

theorem sub2_nil : sub2 [] = [] := rfl

theorem sub2_cons_some {c : Char} {rest r : Val} (h : matchIso (c :: rest) = some r) :
    sub2 (c :: rest) = ' ' :: sub2 r := by
  have hr : r.length < (c :: rest).length := matchIso_length h
  simp only [List.length_cons] at hr
  unfold sub2
  simp only [List.length_cons, sub2F, h]
  rw [@sub2F_eq rest.length r.length r (by omega) (Nat.le_refl _)]

theorem sub2_cons_none {c : Char} {rest : Val} (h : matchIso (c :: rest) = none) :
    sub2 (c :: rest) = c :: sub2 rest := by
  unfold sub2
  simp only [List.length_cons, sub2F, h]

theorem collapseF_eq : ∀ (f1 : Nat) {f2 : Nat} {l : Val},
    l.length ≤ f1 → l.length ≤ f2 → collapseF f1 l = collapseF f2 l := by
  intro f1
  induction f1 with
  | zero =>
    intro f2 l h1 _
    have : l = [] := List.eq_nil_of_length_eq_zero (Nat.le_zero.mp h1)
    subst this
    cases f2 <;> rfl
  | succ f ih =>
    intro f2 l h1 h2
    match l with
    | [] => cases f2 <;> rfl
    | c :: rest =>
      match f2 with
      | 0 => simp at h2
      | g + 1 =>
        simp only [collapseF]
        have hd : (rest.dropWhile isPySpace).length ≤ rest.length := dropWhile_len_le _ _
        simp only [List.length_cons] at h1 h2
        by_cases hc : isPySpace c
        · rw [if_pos hc, if_pos hc, @ih g (rest.dropWhile isPySpace) (by omega) (by omega)]
        · rw [if_neg hc, if_neg hc, @ih g rest (by omega) (by omega)]

theorem collapseWs_nil : collapseWs [] = [] := rfl

theorem collapseWs_cons (c : Char) (rest : Val) :
    collapseWs (c :: rest) =
      if isPySpace c then ' ' :: collapseWs (rest.dropWhile isPySpace)
      else c :: collapseWs rest := by
  unfold collapseWs
  simp only [List.length_cons, collapseF]
  have hd : (rest.dropWhile isPySpace).length ≤ rest.length := dropWhile_len_le _ _
  by_cases hc : isPySpace c
  · rw [if_pos hc, if_pos hc,
      @collapseF_eq rest.length (rest.dropWhile isPySpace).length (rest.dropWhile isPySpace)
      (by omega) (Nat.le_refl _)]
  · rw [if_neg hc, if_neg hc]

theorem pySplitF_eq : ∀ (f1 : Nat) {f2 : Nat} {l : Val},
    l.length ≤ f1 → l.length ≤ f2 → pySplitF f1 l = pySplitF f2 l := by
  intro f1
  induction f1 with
  | zero =>
    intro f2 l h1 _
    have : l = [] := List.eq_nil_of_length_eq_zero (Nat.le_zero.mp h1)
    subst this
    cases f2 <;> rfl
  | succ f ih =>
    intro f2 l h1 h2
    match l with
    | [] => cases f2 <;> rfl
    | c :: rest =>
      match f2 with
      | 0 => simp at h2
      | g + 1 =>
        simp only [pySplitF]
        have hd : (rest.dropWhile (fun d => !isPySpace d)).length ≤ rest.length :=
          dropWhile_len_le _ _
        simp only [List.length_cons] at h1 h2
        by_cases hc : isPySpace c
        · rw [if_pos hc, if_pos hc, @ih g rest (by omega) (by omega)]
        · rw [if_neg hc, if_neg hc,
            @ih g (rest.dropWhile (fun d => !isPySpace d)) (by omega) (by omega)]

theorem pySplit_nil : pySplit [] = [] := rfl

theorem pySplit_cons (c : Char) (rest : Val) :
    pySplit (c :: rest) =
      if isPySpace c then pySplit rest
      else (c :: rest.takeWhile (fun d => !isPySpace d)) ::
           pySplit (rest.dropWhile (fun d => !isPySpace d)) := by
  unfold pySplit
  simp only [List.length_cons, pySplitF]
  have hd : (rest.dropWhile (fun d => !isPySpace d)).length ≤ rest.length :=
    dropWhile_len_le _ _
  by_cases hc : isPySpace c
  · rw [if_pos hc, if_pos hc]
  · rw [if_neg hc, if_neg hc,
      @pySplitF_eq rest.length (rest.dropWhile (fun d => !isPySpace d)).length
      (rest.dropWhile (fun d => !isPySpace d)) (by omega) (Nat.le_refl _)]

theorem nearConstant_iff_topFrac (cells : List Cell) :
    nearConstant cells = true ↔ topFrac cells > 95 / 100 := by
  unfold nearConstant topFrac
  rcases Nat.eq_zero_or_pos (nonMissing cells).length with h0 | hpos
  · have hm : maxCount (nonMissing cells) = 0 := by
      have : nonMissing cells = [] := List.eq_nil_of_length_eq_zero h0
      rw [this]
      rfl
    rw [hm, h0]
    norm_num
  · rw [decide_eq_true_eq, gt_iff_lt, gt_iff_lt,
      div_lt_div_iff₀ (by norm_num) (by exact_mod_cast hpos)]
    have hcast : (95 : ℚ) * (nonMissing cells).length <
        (maxCount (nonMissing cells) : ℚ) * 100 ↔
        95 * (nonMissing cells).length < maxCount (nonMissing cells) * 100 := by
      exact_mod_cast Iff.rfl
    rw [hcast]
    omega

/-! Character toolkit: every class test reduced to `Char.toNat`
arithmetic, so that `omega` settles all character reasoning. -/

theorem char_le_iff {a b : Char} : a ≤ b ↔ a.toNat ≤ b.toNat := Iff.rfl

theorem char_eq_iff {a b : Char} : a = b ↔ a.toNat = b.toNat := by
  constructor
  · intro h; rw [h]
  · intro h
    exact Char.eq_of_val_eq (UInt32.eq_of_toBitVec_eq (BitVec.eq_of_toNat_eq h))

theorem char_toNat_ofNat {n : Nat} (h : n.isValidChar) : (Char.ofNat n).toNat = n := by
  unfold Char.ofNat
  rw [dif_pos h]
  unfold Char.ofNatAux
  simp [Char.toNat, UInt32.toNat]

theorem isWordChar_iff {c : Char} : isWordChar c = true ↔
    (97 ≤ c.toNat ∧ c.toNat ≤ 122) ∨ (65 ≤ c.toNat ∧ c.toNat ≤ 90) ∨
    (48 ≤ c.toNat ∧ c.toNat ≤ 57) ∨ c.toNat = 95 ∨
    c.toNat = 170 ∨ c.toNat = 178 ∨ c.toNat = 179 ∨ c.toNat = 181 ∨
    c.toNat = 185 ∨ c.toNat = 186 ∨ (188 ≤ c.toNat ∧ c.toNat ≤ 190) ∨
    (192 ≤ c.toNat ∧ c.toNat ≤ 214) ∨ (216 ≤ c.toNat ∧ c.toNat ≤ 246) ∨
    (248 ≤ c.toNat ∧ c.toNat ≤ 255) := by
  unfold isWordChar
  simp only [Bool.or_eq_true, Bool.and_eq_true, decide_eq_true_eq, char_le_iff, char_eq_iff]
  rw [show ('a' : Char).toNat = 97 from rfl, show ('z' : Char).toNat = 122 from rfl,
    show ('A' : Char).toNat = 65 from rfl, show ('Z' : Char).toNat = 90 from rfl,
    show ('0' : Char).toNat = 48 from rfl, show ('9' : Char).toNat = 57 from rfl,
    show ('_' : Char).toNat = 95 from rfl]
  omega

theorem isPySpace_iff {c : Char} : isPySpace c = true ↔
    c.toNat = 32 ∨ c.toNat = 9 ∨ c.toNat = 10 ∨ c.toNat = 13 ∨
    c.toNat = 11 ∨ c.toNat = 12 ∨ (28 ≤ c.toNat ∧ c.toNat ≤ 31) ∨
    c.toNat = 133 ∨ c.toNat = 160 := by
  unfold isPySpace
  simp only [Bool.or_eq_true, Bool.and_eq_true, decide_eq_true_eq, char_eq_iff, char_le_iff]
  rw [show (' ' : Char).toNat = 32 from rfl, show ('\t' : Char).toNat = 9 from rfl,
    show ('\n' : Char).toNat = 10 from rfl, show ('\r' : Char).toNat = 13 from rfl]
  omega

theorem isAsciiAlpha_iff {c : Char} : isAsciiAlpha c = true ↔
    (97 ≤ c.toNat ∧ c.toNat ≤ 122) ∨ (65 ≤ c.toNat ∧ c.toNat ≤ 90) := by
  unfold isAsciiAlpha
  simp only [Bool.or_eq_true, Bool.and_eq_true, decide_eq_true_eq, char_le_iff]
  rw [show ('a' : Char).toNat = 97 from rfl, show ('z' : Char).toNat = 122 from rfl,
    show ('A' : Char).toNat = 65 from rfl, show ('Z' : Char).toNat = 90 from rfl]

theorem allowedChar_iff {c : Char} : allowedChar c = true ↔
    (97 ≤ c.toNat ∧ c.toNat ≤ 122) ∨ (48 ≤ c.toNat ∧ c.toNat ≤ 57) ∨
    c.toNat = 95 ∨ c.toNat = 32 := by
  unfold allowedChar
  simp only [Bool.or_eq_true, Bool.and_eq_true, decide_eq_true_eq, char_le_iff, char_eq_iff]
  rw [show ('a' : Char).toNat = 97 from rfl, show ('z' : Char).toNat = 122 from rfl,
    show ('0' : Char).toNat = 48 from rfl, show ('9' : Char).toNat = 57 from rfl,
    show ('_' : Char).toNat = 95 from rfl, show (' ' : Char).toNat = 32 from rfl]
  omega

theorem space_toNat_iff {c : Char} : c = ' ' ↔ c.toNat = 32 := by
  rw [char_eq_iff]
  rw [show (' ' : Char).toNat = 32 from rfl]

theorem lowerChar_toNat (c : Char) : (lowerChar c).toNat =
    if (65 ≤ c.toNat ∧ c.toNat ≤ 90) ∨
        (192 ≤ c.toNat ∧ c.toNat ≤ 222 ∧ c.toNat ≠ 215) then
      c.toNat + 32
    else c.toNat := by
  unfold lowerChar
  have hAZ : (('A' ≤ c && c ≤ 'Z') ||
      (192 ≤ c.toNat && c.toNat ≤ 222 && c.toNat ≠ 215)) = true ↔
      ((65 ≤ c.toNat ∧ c.toNat ≤ 90) ∨
        (192 ≤ c.toNat ∧ c.toNat ≤ 222 ∧ c.toNat ≠ 215)) := by
    simp only [Bool.or_eq_true, Bool.and_eq_true, decide_eq_true_eq, char_le_iff]
    rw [show ('A' : Char).toNat = 65 from rfl, show ('Z' : Char).toNat = 90 from rfl]
    omega
  by_cases h : (65 ≤ c.toNat ∧ c.toNat ≤ 90) ∨
      (192 ≤ c.toNat ∧ c.toNat ≤ 222 ∧ c.toNat ≠ 215)
  · rw [if_pos (hAZ.mpr h), if_pos h]
    have hv : (c.toNat + 32).isValidChar := by
      left
      omega
    exact char_toNat_ofNat hv
  · rw [if_neg (fun hb => h (hAZ.mp hb)), if_neg h]

theorem lower_wos_allowed {c : Char} (h : isWordChar c = true ∨ c = ' ')
    (ha : c.toNat < 128) : allowedChar (lowerChar c) = true := by
  rw [allowedChar_iff, lowerChar_toNat]
  rw [isWordChar_iff, space_toNat_iff] at h
  by_cases hr : (65 ≤ c.toNat ∧ c.toNat ≤ 90) ∨
      (192 ≤ c.toNat ∧ c.toNat ≤ 222 ∧ c.toNat ≠ 215)
  · rw [if_pos hr]
    omega
  · rw [if_neg hr]
    omega

theorem lower_word_word {c : Char} (h : isWordChar c = true) :
    isWordChar (lowerChar c) = true := by
  rw [isWordChar_iff] at h
  rw [isWordChar_iff, lowerChar_toNat]
  by_cases hr : (65 ≤ c.toNat ∧ c.toNat ≤ 90) ∨
      (192 ≤ c.toNat ∧ c.toNat ≤ 222 ∧ c.toNat ≠ 215)
  · rw [if_pos hr]
    omega
  · rw [if_neg hr]
    omega

theorem lowerChar_idem (c : Char) : lowerChar (lowerChar c) = lowerChar c := by
  have h1 := lowerChar_toNat c
  rw [char_eq_iff, lowerChar_toNat (lowerChar c), h1]
  by_cases h : (65 ≤ c.toNat ∧ c.toNat ≤ 90) ∨
      (192 ≤ c.toNat ∧ c.toNat ≤ 222 ∧ c.toNat ≠ 215)
  · rw [if_pos h, if_neg (by omega)]
  · rw [if_neg h, if_neg h]

theorem lowerChar_space : lowerChar ' ' = ' ' := by decide

theorem lowerChar_space_iff {c : Char} : lowerChar c = ' ' ↔ c = ' ' := by
  rw [space_toNat_iff, space_toNat_iff, lowerChar_toNat]
  by_cases hr : (65 ≤ c.toNat ∧ c.toNat ≤ 90) ∨
      (192 ≤ c.toNat ∧ c.toNat ≤ 222 ∧ c.toNat ≠ 215)
  · rw [if_pos hr]
    omega
  · rw [if_neg hr]

theorem allowed_lowerChar_id {c : Char} (h : allowedChar c = true) : lowerChar c = c := by
  rw [char_eq_iff, lowerChar_toNat]
  rw [allowedChar_iff] at h
  rw [if_neg (by omega)]

theorem allowed_wos {c : Char} (h : allowedChar c = true) :
    isWordChar c = true ∨ c = ' ' := by
  rw [isWordChar_iff, space_toNat_iff]
  rw [allowedChar_iff] at h
  omega

theorem wordChar_not_space {c : Char} (h : isWordChar c = true) : isPySpace c = false := by
  rw [isWordChar_iff] at h
  rw [← Bool.not_eq_true, isPySpace_iff]
  omega

theorem allowed_space_iff {c : Char} (h : allowedChar c = true) :
    isPySpace c = true ↔ c = ' ' := by
  rw [isPySpace_iff, space_toNat_iff]
  rw [allowedChar_iff] at h
  omega

theorem space_isPySpace : isPySpace ' ' = true := by decide

theorem not_space_of_not_pySpace {c : Char} (h : isPySpace c = false) : c ≠ ' ' := by
  intro he
  rw [he, space_isPySpace] at h
  cases h

/-! Membership propagation: each normalizer step only keeps input
characters or introduces spaces. -/

theorem mem_of_mem_dropWhile {p : Char → Bool} {c : Char} {l : Val}
    (h : c ∈ l.dropWhile p) : c ∈ l := by
  induction l with
  | nil => simpa using h
  | cons a rest ih =>
    rw [List.dropWhile_cons] at h
    by_cases hp : p a
    · simp only [hp, if_true] at h
      exact List.mem_cons_of_mem _ (ih h)
    · simpa [hp] using h

theorem dropWhile_head_false {p : Char → Bool} {c : Char} {l r : Val}
    (h : l.dropWhile p = c :: r) : p c = false := by
  induction l with
  | nil => simp at h
  | cons a rest ih =>
    rw [List.dropWhile_cons] at h
    by_cases hp : p a
    · rw [if_pos hp] at h
      exact ih h
    · rw [if_neg hp] at h
      cases h
      exact Bool.of_not_eq_true hp

theorem matchIso_some_subset {l r : Val} (h : matchIso l = some r) :
    ∀ c ∈ r, c ∈ l := by
  intro c hc
  unfold matchIso at h
  by_cases h1 : headIs isPySpace l
  · rw [if_pos h1] at h
    by_cases h2 : headIs isAsciiAlpha (l.dropWhile isPySpace)
    · rw [if_pos h2] at h
      by_cases h3 : headIs isPySpace (l.dropWhile isPySpace).tail
      · rw [if_pos h3, Option.some_inj] at h
        subst h
        have hc2 : c ∈ (l.dropWhile isPySpace).tail := mem_of_mem_dropWhile hc
        have hc3 : c ∈ l.dropWhile isPySpace := by
          cases hdw : l.dropWhile isPySpace with
          | nil => rw [hdw] at hc2; simp at hc2
          | cons a r2 =>
            rw [hdw] at hc2
            exact List.mem_cons_of_mem _ hc2
        exact mem_of_mem_dropWhile hc3
      · rw [if_neg h3] at h; cases h
    · rw [if_neg h2] at h; cases h
  · rw [if_neg h1] at h; cases h

theorem sub2_mem : ∀ (n : Nat) (l : Val), l.length ≤ n →
    ∀ c ∈ sub2 l, c ∈ l ∨ c = ' ' := by
  intro n
  induction n with
  | zero =>
    intro l h1 c hc
    have : l = [] := List.eq_nil_of_length_eq_zero (Nat.le_zero.mp h1)
    subst this
    rw [sub2_nil] at hc
    simp at hc
  | succ n ih =>
    intro l h1 c hc
    match l with
    | [] => rw [sub2_nil] at hc; simp at hc
    | a :: rest =>
      rcases hm : matchIso (a :: rest) with _ | r
      · rw [sub2_cons_none hm] at hc
        rcases List.mem_cons.mp hc with h | h
        · left; simp [h]
        · simp only [List.length_cons] at h1
          rcases ih rest (by omega) c h with h' | h'
          · left; exact List.mem_cons_of_mem _ h'
          · right; exact h'
      · rw [sub2_cons_some hm] at hc
        rcases List.mem_cons.mp hc with h | h
        · right; exact h
        · have hr : r.length < (a :: rest).length := matchIso_length hm
          simp only [List.length_cons] at h1 hr
          rcases ih r (by omega) c h with h' | h'
          · left; exact matchIso_some_subset hm c h'
          · right; exact h'

theorem mem_of_mem_tail' {c : Char} {l : Val} (h : c ∈ l.tail) : c ∈ l := by
  cases l with
  | nil => simpa using h
  | cons a rest => exact List.mem_cons_of_mem _ h

theorem sub3_mem {l : Val} {c : Char} (h : c ∈ sub3 l) : c ∈ l ∨ c = ' ' := by
  unfold sub3 at h
  by_cases hc : (headIs isAsciiAlpha l && headIs isPySpace l.tail) = true
  · rw [if_pos hc] at h
    rcases List.mem_cons.mp h with h' | h'
    · right; exact h'
    · left; exact mem_of_mem_tail' (mem_of_mem_dropWhile h')
  · rw [if_neg hc] at h
    left; exact h

theorem collapseWs_mem : ∀ (n : Nat) (l : Val), l.length ≤ n →
    ∀ c ∈ collapseWs l, c ∈ l ∨ c = ' ' := by
  intro n
  induction n with
  | zero =>
    intro l h1 c hc
    have : l = [] := List.eq_nil_of_length_eq_zero (Nat.le_zero.mp h1)
    subst this
    rw [collapseWs_nil] at hc
    simp at hc
  | succ n ih =>
    intro l h1 c hc
    match l with
    | [] => rw [collapseWs_nil] at hc; simp at hc
    | a :: rest =>
      rw [collapseWs_cons] at hc
      simp only [List.length_cons] at h1
      by_cases hs : isPySpace a
      · rw [if_pos hs] at hc
        rcases List.mem_cons.mp hc with h | h
        · right; exact h
        · have hd : (rest.dropWhile isPySpace).length ≤ rest.length := dropWhile_len_le _ _
          rcases ih (rest.dropWhile isPySpace) (by omega) c h with h' | h'
          · left; exact List.mem_cons_of_mem _ (mem_of_mem_dropWhile h')
          · right; exact h'
      · rw [if_neg hs] at hc
        rcases List.mem_cons.mp hc with h | h
        · left; simp [h]
        · rcases ih rest (by omega) c h with h' | h'
          · left; exact List.mem_cons_of_mem _ h'
          · right; exact h'

theorem sub5_mem {l : Val} {c : Char} (h : c ∈ sub5 l) : c ∈ l := by
  unfold sub5 at h
  by_cases hc : (headIs (fun c => c == 'b') l && headIs isPySpace l.tail) = true
  · rw [if_pos hc] at h
    exact mem_of_mem_tail' (mem_of_mem_dropWhile h)
  · rw [if_neg hc] at h
    exact h

theorem stripR_take (l : Val) : ∃ n, stripR l = l.take n := by
  induction l with
  | nil => exact ⟨0, rfl⟩
  | cons c rest ih =>
    obtain ⟨m, hm⟩ := ih
    unfold stripR
    cases hr : stripR rest with
    | nil =>
      by_cases hc : isPySpace c
      · rw [if_pos hc]
        exact ⟨0, rfl⟩
      · rw [if_neg hc]
        exact ⟨1, by simp⟩
    | cons d r =>
      refine ⟨m + 1, ?_⟩
      rw [List.take_succ_cons, ← hm, hr]

theorem stripR_mem {l : Val} {c : Char} (h : c ∈ stripR l) : c ∈ l := by
  obtain ⟨n, hn⟩ := stripR_take l
  rw [hn] at h
  exact List.mem_of_mem_take h

/-- Every character of the normalizer's output is the lowering of a
character of `std1`'s output or of a space. -/
theorem normalize_mem_struct {l : Val} {c : Char}
    (hc : c ∈ preprocess_individual_text l) :
    ∃ d, c = lowerChar d ∧ (d ∈ std1 l ∨ d = ' ') := by
  unfold preprocess_individual_text pyStrip at hc
  have hc2 := mem_of_mem_dropWhile (stripR_mem hc)
  obtain ⟨d, hd, hcd⟩ := List.mem_map.mp hc2
  subst hcd
  have hd2 := sub5_mem hd
  rcases collapseWs_mem _ _ (Nat.le_refl _) _ hd2 with h3 | h3
  · rcases sub3_mem h3 with h4 | h4
    · rcases sub2_mem _ _ (Nat.le_refl _) _ h4 with h5 | h5
      · exact ⟨d, rfl, Or.inl h5⟩
      · exact ⟨d, rfl, Or.inr h5⟩
    · exact ⟨d, rfl, Or.inr h4⟩
  · exact ⟨d, rfl, Or.inr h3⟩

/-- On an ASCII input every character of the normalizer's output is
lowercase alphanumeric, an underscore, or a space. -/
theorem normalize_allowed_of_ascii {l : Val} (ha : ∀ c ∈ l, c.toNat < 128) :
    ∀ c ∈ preprocess_individual_text l, allowedChar c = true := by
  intro c hc
  obtain ⟨d, rfl, hd⟩ := normalize_mem_struct hc
  rcases hd with hd | hd
  · unfold std1 at hd
    obtain ⟨e, hel, he⟩ := List.mem_map.mp hd
    by_cases hw : isWordChar e
    · rw [if_pos hw] at he
      subst he
      exact lower_wos_allowed (Or.inl hw) (ha e hel)
    · rw [if_neg hw] at he
      subst he
      exact lower_wos_allowed (Or.inr rfl) (by decide)
  · subst hd
    exact lower_wos_allowed (Or.inr rfl) (by decide)

/-- Every character of the normalizer's output is a word character or a
space (over the full model alphabet). -/
theorem normalize_word_or_space {l : Val} :
    ∀ c ∈ preprocess_individual_text l, isWordChar c = true ∨ c = ' ' := by
  intro c hc
  obtain ⟨d, rfl, hd⟩ := normalize_mem_struct hc
  rcases hd with hd | hd
  · unfold std1 at hd
    obtain ⟨e, _, he⟩ := List.mem_map.mp hd
    by_cases hw : isWordChar e
    · rw [if_pos hw] at he
      subst he
      exact Or.inl (lower_word_word hw)
    · rw [if_neg hw] at he
      subst he
      exact Or.inr lowerChar_space
  · subst hd
    exact Or.inr lowerChar_space

/-- Every character of the normalizer's output is fixed by lowering:
the output is already lower case. -/
theorem normalize_lower_fixed {l : Val} :
    ∀ c ∈ preprocess_individual_text l, lowerChar c = c := by
  intro c hc
  obtain ⟨d, rfl, -⟩ := normalize_mem_struct hc
  exact lowerChar_idem d

/-! Single-space separation (`noDbl`) propagation. -/

theorem noDbl_two {a b : Char} {r : Val} :
    noDbl (a :: b :: r) = (!(a = ' ' && b = ' ') && noDbl (b :: r)) := rfl

theorem noDbl_cons_iff {a : Char} {l : Val} :
    noDbl (a :: l) = true ↔ noDbl l = true ∧ ¬(a = ' ' ∧ l.head? = some ' ') := by
  cases l with
  | nil => simp [noDbl]
  | cons b r =>
    rw [noDbl_two]
    simp only [Bool.and_eq_true, Bool.not_eq_true', Bool.and_eq_false_iff,
      decide_eq_false_iff_not, List.head?_cons, Option.some_inj]
    constructor
    · rintro ⟨hab, hr⟩
      exact ⟨hr, by rcases hab with h | h <;> simp [h]⟩
    · rintro ⟨hr, hab⟩
      refine ⟨?_, hr⟩
      by_cases ha : a = ' '
      · right
        intro hb
        exact hab ⟨ha, hb⟩
      · left
        exact ha

theorem noDbl_of_cons {a : Char} {l : Val} (h : noDbl (a :: l) = true) :
    noDbl l = true := (noDbl_cons_iff.mp h).1

theorem noDbl_dropWhile (p : Char → Bool) {l : Val} (h : noDbl l = true) :
    noDbl (l.dropWhile p) = true := by
  induction l with
  | nil => simpa using h
  | cons a rest ih =>
    rw [List.dropWhile_cons]
    by_cases hp : p a
    · rw [if_pos hp]
      exact ih (noDbl_of_cons h)
    · rw [if_neg hp]
      exact h

theorem noDbl_take {l : Val} (h : noDbl l = true) : ∀ n, noDbl (l.take n) = true := by
  induction l with
  | nil => intro n; simp [noDbl]
  | cons a rest ih =>
    intro n
    match n with
    | 0 => simp [noDbl]
    | m + 1 =>
      rw [List.take_succ_cons, noDbl_cons_iff]
      refine ⟨ih (noDbl_of_cons h) m, ?_⟩
      rintro ⟨ha, hh⟩
      rcases (noDbl_cons_iff.mp h) with ⟨_, hno⟩
      apply hno
      refine ⟨ha, ?_⟩
      match rest, m with
      | [], _ => simp at hh
      | b :: r2, 0 => simp at hh
      | b :: r2, k + 1 =>
        rw [List.take_succ_cons, List.head?_cons] at hh
        simpa using hh

theorem collapseWs_noDbl : ∀ (n : Nat) (l : Val), l.length ≤ n →
    noDbl (collapseWs l) = true := by
  intro n
  induction n with
  | zero =>
    intro l h1
    have : l = [] := List.eq_nil_of_length_eq_zero (Nat.le_zero.mp h1)
    subst this
    rfl
  | succ n ih =>
    intro l h1
    match l with
    | [] => rfl
    | a :: rest =>
      rw [collapseWs_cons]
      simp only [List.length_cons] at h1
      by_cases hs : isPySpace a
      · rw [if_pos hs, noDbl_cons_iff]
        have hd : (rest.dropWhile isPySpace).length ≤ rest.length := dropWhile_len_le _ _
        refine ⟨ih _ (by omega), ?_⟩
        rintro ⟨-, hh⟩
        cases hdw : rest.dropWhile isPySpace with
        | nil => rw [hdw] at hh; simp [collapseWs_nil] at hh
        | cons d r2 =>
          have hdns : isPySpace d = false := dropWhile_head_false hdw
          rw [hdw, collapseWs_cons, if_neg (by simp [hdns])] at hh
          rw [List.head?_cons, Option.some_inj] at hh
          exact not_space_of_not_pySpace hdns hh
      · rw [if_neg hs, noDbl_cons_iff]
        refine ⟨ih _ (by omega), ?_⟩
        rintro ⟨ha, -⟩
        rw [ha, space_isPySpace] at hs
        exact hs rfl

theorem map_lower_noDbl {l : Val} (h : noDbl l = true) :
    noDbl (l.map lowerChar) = true := by
  induction l with
  | nil => simpa using h
  | cons a rest ih =>
    rw [List.map_cons, noDbl_cons_iff]
    rcases noDbl_cons_iff.mp h with ⟨h1, h2⟩
    refine ⟨ih h1, ?_⟩
    rintro ⟨ha, hh⟩
    apply h2
    refine ⟨lowerChar_space_iff.mp ha, ?_⟩
    cases rest with
    | nil => simp at hh
    | cons b r2 =>
      rw [List.map_cons, List.head?_cons, Option.some_inj] at hh
      rw [List.head?_cons, Option.some_inj]
      exact lowerChar_space_iff.mp hh

theorem stripR_noDbl {l : Val} (h : noDbl l = true) : noDbl (stripR l) = true := by
  obtain ⟨n, hn⟩ := stripR_take l
  rw [hn]
  exact noDbl_take h n

/-- Single-space separation for the full normalizer. -/
theorem normalize_noDbl (l : Val) :
    noDbl (preprocess_individual_text l) = true := by
  unfold preprocess_individual_text pyStrip
  apply stripR_noDbl
  apply noDbl_dropWhile
  apply map_lower_noDbl
  have h4 : noDbl (collapseWs (sub3 (sub2 (std1 l)))) = true :=
    collapseWs_noDbl _ _ (Nat.le_refl _)
  unfold sub5
  by_cases hb : (headIs (fun c => c == 'b') (collapseWs (sub3 (sub2 (std1 l)))) &&
      headIs isPySpace (collapseWs (sub3 (sub2 (std1 l)))).tail) = true
  · rw [if_pos hb]
    apply noDbl_dropWhile
    cases hc : collapseWs (sub3 (sub2 (std1 l))) with
    | nil => simp [noDbl]
    | cons a r =>
      rw [hc] at h4
      exact noDbl_of_cons h4
  · rw [if_neg hb]
    exact h4

/-! Leading and trailing whitespace removal. -/

theorem stripR_getLast_not_space : ∀ {l : Val} {c : Char},
    (stripR l).getLast? = some c → isPySpace c = false := by
  intro l
  induction l with
  | nil => intro c hc; simp [stripR] at hc
  | cons a rest ih =>
    intro c hc
    unfold stripR at hc
    cases hr : stripR rest with
    | nil =>
      rw [hr] at hc
      by_cases ha : isPySpace a
      · rw [if_pos ha] at hc
        simp at hc
      · rw [if_neg ha] at hc
        simp only [List.getLast?_singleton, Option.some_inj] at hc
        subst hc
        exact Bool.of_not_eq_true ha
    | cons d r =>
      rw [hr] at hc
      rw [List.getLast?_cons_cons] at hc
      rw [← hr] at hc
      exact ih hc

theorem pyStrip_head_not_space {l : Val} {c : Char}
    (h : (pyStrip l).head? = some c) : isPySpace c = false := by
  unfold pyStrip at h
  obtain ⟨n, hn⟩ := stripR_take (l.dropWhile isPySpace)
  rw [hn] at h
  cases hdw : l.dropWhile isPySpace with
  | nil => rw [hdw] at h; simp at h
  | cons d t =>
    have hd : isPySpace d = false := dropWhile_head_false hdw
    rw [hdw] at h
    match n with
    | 0 => simp at h
    | m + 1 =>
      rw [List.take_succ_cons, List.head?_cons, Option.some_inj] at h
      subst h
      exact hd

theorem normalize_head_not_space (l : Val) {c : Char}
    (h : (preprocess_individual_text l).head? = some c) : isPySpace c = false :=
  pyStrip_head_not_space h

theorem normalize_getLast_not_space (l : Val) {c : Char}
    (h : (preprocess_individual_text l).getLast? = some c) : isPySpace c = false := by
  unfold preprocess_individual_text pyStrip at h
  exact stripR_getLast_not_space h

/-! Fixed points of the normalizer: each step is the identity on
already-normalized input without isolated-letter or leading-letter
patterns. -/

theorem std1_id {l : Val} (h : ∀ c ∈ l, isWordChar c = true ∨ c = ' ') :
    std1 l = l := by
  unfold std1
  induction l with
  | nil => rfl
  | cons a rest ih =>
    rw [List.map_cons, ih (fun c hc => h c (List.mem_cons_of_mem _ hc))]
    rcases h a (List.mem_cons_self _ _) with ha | ha
    · rw [if_pos ha]
    · subst ha
      rfl

theorem sub2_id {l : Val} (h : isoFree l = true) : sub2 l = l := by
  induction l with
  | nil => rfl
  | cons a rest ih =>
    unfold isoFree at h
    rw [Bool.and_eq_true, Option.isNone_iff_eq_none] at h
    rw [sub2_cons_none h.1, ih h.2]

theorem startsAlphaWs_eq (l : Val) :
    startsAlphaWs l = (headIs isAsciiAlpha l && headIs isPySpace l.tail) := by
  match l with
  | [] => rfl
  | [c] => simp [startsAlphaWs, headIs]
  | c :: d :: r => rfl

theorem sub3_id {l : Val} (h : startsAlphaWs l = false) : sub3 l = l := by
  unfold sub3
  rw [startsAlphaWs_eq] at h
  rw [if_neg (by simp [h])]

theorem wos_space_iff {c : Char} (h : isWordChar c = true ∨ c = ' ') :
    isPySpace c = true ↔ c = ' ' := by
  constructor
  · intro hs
    rcases h with h | h
    · rw [wordChar_not_space h] at hs
      cases hs
    · exact h
  · intro he
    rw [he]
    exact space_isPySpace

theorem collapseWs_id : ∀ (n : Nat) (l : Val), l.length ≤ n →
    (∀ c ∈ l, isWordChar c = true ∨ c = ' ') → noDbl l = true → collapseWs l = l := by
  intro n
  induction n with
  | zero =>
    intro l h1 _ _
    have : l = [] := List.eq_nil_of_length_eq_zero (Nat.le_zero.mp h1)
    subst this
    rfl
  | succ n ih =>
    intro l h1 hall hnd
    match l with
    | [] => rfl
    | a :: rest =>
      rw [collapseWs_cons]
      simp only [List.length_cons] at h1
      by_cases hs : isPySpace a
      · have ha : a = ' ' :=
          (wos_space_iff (hall a (List.mem_cons_self _ _))).mp hs
        have hdw : rest.dropWhile isPySpace = rest := by
          cases rest with
          | nil => rfl
          | cons b r2 =>
            have hb : b ≠ ' ' := by
              intro hb
              rcases noDbl_cons_iff.mp hnd with ⟨-, hno⟩
              exact hno ⟨ha, by rw [hb]; rfl⟩
            have hbs : isPySpace b = false := by
              rw [← Bool.not_eq_true]
              intro hbs
              exact hb ((wos_space_iff
                (hall b (List.mem_cons_of_mem _ (List.mem_cons_self _ _)))).mp hbs)
            rw [List.dropWhile_cons, if_neg (by simp [hbs])]
        rw [if_pos hs, hdw, ha,
          ih rest (by omega) (fun c hc => hall c (List.mem_cons_of_mem _ hc))
            (noDbl_of_cons hnd)]
      · rw [if_neg hs,
          ih rest (by omega) (fun c hc => hall c (List.mem_cons_of_mem _ hc))
            (noDbl_of_cons hnd)]

theorem sub5_id {l : Val} (h : startsAlphaWs l = false) : sub5 l = l := by
  unfold sub5
  rw [startsAlphaWs_eq] at h
  refine if_neg ?_
  intro hb
  rw [Bool.and_eq_true] at hb
  have halpha : headIs isAsciiAlpha l = true := by
    cases l with
    | nil => simp [headIs] at hb
    | cons c rest =>
      have hc : c = 'b' := by
        have := hb.1
        simp only [headIs, beq_iff_eq] at this
        exact this
      subst hc
      show isAsciiAlpha 'b' = true
      decide
  rw [halpha, hb.2] at h
  simp at h

theorem map_lower_id {l : Val} (h : ∀ c ∈ l, lowerChar c = c) :
    l.map lowerChar = l := by
  induction l with
  | nil => rfl
  | cons a rest ih =>
    rw [List.map_cons, h a (List.mem_cons_self _ _),
      ih (fun c hc => h c (List.mem_cons_of_mem _ hc))]

theorem stripR_id {l : Val} (h : ∀ c, l.getLast? = some c → isPySpace c = false) :
    stripR l = l := by
  induction l with
  | nil => rfl
  | cons a rest ih =>
    unfold stripR
    cases rest with
    | nil =>
      have ha : isPySpace a = false := h a rfl
      rw [show stripR [] = [] from rfl]
      rw [if_neg (by simp [ha])]
    | cons b r2 =>
      have hr : stripR (b :: r2) = b :: r2 := by
        apply ih
        intro c hc
        apply h
        rw [List.getLast?_cons_cons]
        exact hc
      rw [hr]

theorem pyStrip_id {l : Val}
    (hh : ∀ c, l.head? = some c → isPySpace c = false)
    (hl : ∀ c, l.getLast? = some c → isPySpace c = false) :
    pyStrip l = l := by
  unfold pyStrip
  have hdw : l.dropWhile isPySpace = l := by
    cases l with
    | nil => rfl
    | cons a rest =>
      rw [List.dropWhile_cons, if_neg (by simp [hh a rfl])]
  rw [hdw]
  exact stripR_id hl

/-- The normalizer fixes any string in normalized form that contains no
isolated-single-letter pattern and no leading letter-plus-whitespace. -/
theorem normalize_fixpoint {t : Val}
    (hws : ∀ c ∈ t, isWordChar c = true ∨ c = ' ') (hnd : noDbl t = true)
    (hlf : ∀ c ∈ t, lowerChar c = c)
    (hh : ∀ c, t.head? = some c → isPySpace c = false)
    (hl : ∀ c, t.getLast? = some c → isPySpace c = false)
    (hiso : isoFree t = true) (hsw : startsAlphaWs t = false) :
    preprocess_individual_text t = t := by
  unfold preprocess_individual_text
  rw [std1_id hws, sub2_id hiso, sub3_id hsw,
    collapseWs_id _ _ (Nat.le_refl _) hws hnd, sub5_id hsw, map_lower_id hlf]
  exact pyStrip_id hh hl

/-! `" ".join(s.split())` coincides with collapsing whitespace runs and
trimming both ends. -/

theorem pySplit_dropWhile (l : Val) :
    pySplit (l.dropWhile isPySpace) = pySplit l := by
  induction l with
  | nil => rfl
  | cons a rest ih =>
    rw [List.dropWhile_cons]
    by_cases ha : isPySpace a
    · rw [if_pos ha, pySplit_cons, if_pos ha, ih]
    · rw [if_neg ha]

theorem collapseWs_nonws_append {w r : Val} (hw : ∀ c ∈ w, isPySpace c = false) :
    collapseWs (w ++ r) = w ++ collapseWs r := by
  induction w with
  | nil => rfl
  | cons a w2 ih =>
    rw [List.cons_append, collapseWs_cons,
      if_neg (by simp [hw a (List.mem_cons_self _ _)]),
      ih (fun c hc => hw c (List.mem_cons_of_mem _ hc)), List.cons_append]

theorem collapseWs_allws {r : Val} (hr : ∀ c ∈ r, isPySpace c = true) :
    r = [] ∨ collapseWs r = [' '] := by
  cases r with
  | nil => left; rfl
  | cons a rest =>
    right
    rw [collapseWs_cons, if_pos (hr a (List.mem_cons_self _ _))]
    have hdw : rest.dropWhile isPySpace = [] := by
      rw [List.dropWhile_eq_nil_iff]
      exact fun c hc => hr c (List.mem_cons_of_mem _ hc)
    rw [hdw, collapseWs_nil]

theorem stripR_concat_space (A : Val) : stripR (A ++ [' ']) = stripR A := by
  induction A with
  | nil =>
    show stripR [' '] = []
    rfl
  | cons a A2 ih =>
    show stripR (a :: (A2 ++ [' '])) = stripR (a :: A2)
    unfold stripR
    rw [ih]

theorem stripR_all_nonws {A : Val} (h : ∀ c ∈ A, isPySpace c = false) :
    stripR A = A := by
  induction A with
  | nil => rfl
  | cons a A2 ih =>
    unfold stripR
    rw [ih (fun c hc => h c (List.mem_cons_of_mem _ hc))]
    cases A2 with
    | nil => rw [if_neg (by simp [h a (List.mem_cons_self _ _)])]
    | cons b r => rfl

theorem stripR_cons_of_ne {a : Char} {X : Val} (h : stripR X ≠ []) :
    stripR (a :: X) = a :: stripR X := by
  show (match stripR X with
    | [] => if isPySpace a = true then [] else [a]
    | d :: r => a :: d :: r) = a :: stripR X
  cases hX : stripR X with
  | nil => exact absurd hX h
  | cons d r => rfl

theorem stripR_append_of_ne {X : Val} (h : stripR X ≠ []) :
    ∀ A, stripR (A ++ X) = A ++ stripR X := by
  intro A
  induction A with
  | nil => rfl
  | cons a A2 ih =>
    rw [List.cons_append, stripR_cons_of_ne (by rw [ih]; simp [h]), ih, List.cons_append]

theorem pySplit_eq_nil_iff : ∀ (n : Nat) (l : Val), l.length ≤ n →
    (pySplit l = [] ↔ ∀ c ∈ l, isPySpace c = true) := by
  intro n
  induction n with
  | zero =>
    intro l h1
    have : l = [] := List.eq_nil_of_length_eq_zero (Nat.le_zero.mp h1)
    subst this
    simp [pySplit_nil]
  | succ n ih =>
    intro l h1
    match l with
    | [] => simp [pySplit_nil]
    | a :: rest =>
      rw [pySplit_cons]
      simp only [List.length_cons] at h1
      by_cases ha : isPySpace a
      · rw [if_pos ha, ih rest (by omega)]
        constructor
        · intro h c hc
          rcases List.mem_cons.mp hc with h' | h'
          · rw [h']; exact ha
          · exact h c h'
        · intro h c hc
          exact h c (List.mem_cons_of_mem _ hc)
      · rw [if_neg ha]
        constructor
        · intro h; cases h
        · intro h
          exact absurd (h a (List.mem_cons_self _ _)) (by simp [ha])

theorem pySplit_words_ne_nil : ∀ (n : Nat) (l : Val), l.length ≤ n →
    ∀ {w ws}, pySplit l = w :: ws → w ≠ [] := by
  intro n
  induction n with
  | zero =>
    intro l h1 w ws h
    have : l = [] := List.eq_nil_of_length_eq_zero (Nat.le_zero.mp h1)
    subst this
    rw [pySplit_nil] at h
    cases h
  | succ n ih =>
    intro l h1 w ws h
    match l with
    | [] => rw [pySplit_nil] at h; cases h
    | a :: rest =>
      rw [pySplit_cons] at h
      simp only [List.length_cons] at h1
      by_cases ha : isPySpace a
      · rw [if_pos ha] at h
        exact ih rest (by omega) h
      · rw [if_neg ha] at h
        cases h
        simp

theorem pyStrip_eq_stripR_of_head_nonws {X : Val}
    (h : ∀ c, X.head? = some c → isPySpace c = false) : pyStrip X = stripR X := by
  unfold pyStrip
  cases X with
  | nil => rfl
  | cons a t => rw [List.dropWhile_cons, if_neg (by simp [h a rfl])]

theorem collapseWs_head_nonws_strip {r : Val}
    (h : ∀ c, r.head? = some c → isPySpace c = false) :
    pyStrip (collapseWs r) = stripR (collapseWs r) := by
  cases r with
  | nil => rfl
  | cons d t =>
    have hd : isPySpace d = false := h d rfl
    rw [collapseWs_cons, if_neg (by simp [hd])]
    exact pyStrip_eq_stripR_of_head_nonws (fun c hc => by
      rw [List.head?_cons, Option.some_inj] at hc
      subst hc
      exact hd)

theorem joinSp_ne_nil {w : Val} {ws : List Val} (h : w ≠ []) :
    joinSp (w :: ws) ≠ [] := by
  cases ws with
  | nil => exact h
  | cons x rest =>
    show w ++ ' ' :: joinSp (x :: rest) ≠ []
    simp

/-- `" ".join(v.split())` equals collapsing whitespace runs to single
spaces and then stripping both ends. -/
theorem joinSp_pySplit_eq_strip_collapse : ∀ (n : Nat) (l : Val), l.length ≤ n →
    joinSp (pySplit l) = pyStrip (collapseWs l) := by
  intro n
  induction n with
  | zero =>
    intro l h1
    have : l = [] := List.eq_nil_of_length_eq_zero (Nat.le_zero.mp h1)
    subst this
    rfl
  | succ n ih =>
    intro l h1
    match l with
    | [] => rfl
    | c :: rest =>
      simp only [List.length_cons] at h1
      by_cases hc : isPySpace c
      · rw [pySplit_cons, if_pos hc, collapseWs_cons, if_pos hc]
        unfold pyStrip
        rw [List.dropWhile_cons, if_pos space_isPySpace]
        have hd : (rest.dropWhile isPySpace).length ≤ rest.length := dropWhile_len_le _ _
        rw [← pySplit_dropWhile rest]
        exact ih (rest.dropWhile isPySpace) (by omega)
      · have hw : ∀ d ∈ rest.takeWhile (fun d => !isPySpace d), isPySpace d = false := by
          intro d hd
          have := List.mem_takeWhile_imp hd
          simpa using this
        have hsplitrest : rest = rest.takeWhile (fun d => !isPySpace d) ++
            rest.dropWhile (fun d => !isPySpace d) :=
          (List.takeWhile_append_dropWhile _ _).symm
        rw [pySplit_cons, if_neg hc, collapseWs_cons, if_neg hc]
        unfold pyStrip
        rw [List.dropWhile_cons, if_neg (by simp [hc])]
        set w := rest.takeWhile (fun d => !isPySpace d) with hwdef
        set r := rest.dropWhile (fun d => !isPySpace d) with hrdef
        have hcoll : collapseWs rest = w ++ collapseWs r := by
          conv_lhs => rw [hsplitrest]
          exact collapseWs_nonws_append hw
        have hlenr : r.length ≤ rest.length := dropWhile_len_le _ _
        cases hsp : pySplit r with
        | nil =>
          have hallws : ∀ d ∈ r, isPySpace d = true :=
            (pySplit_eq_nil_iff r.length r (Nat.le_refl _)).mp hsp
          have hjoin : joinSp [c :: w] = c :: w := rfl
          rw [hjoin, hcoll]
          rcases collapseWs_allws hallws with h0 | h0
          · rw [h0, collapseWs_nil, List.append_nil]
            exact (stripR_all_nonws (by
              intro d hd
              rcases List.mem_cons.mp hd with h' | h'
              · rw [h']; simpa using hc
              · exact hw d h')).symm
          · rw [h0]
            show c :: w = stripR ((c :: w) ++ [' '])
            rw [stripR_concat_space]
            exact (stripR_all_nonws (by
              intro d hd
              rcases List.mem_cons.mp hd with h' | h'
              · rw [h']; simpa using hc
              · exact hw d h')).symm
        | cons w2 ws2 =>
          have hrne : r ≠ [] := by
            intro h0
            rw [h0, pySplit_nil] at hsp
            cases hsp
          obtain ⟨e, r2, hre⟩ := List.exists_cons_of_ne_nil hrne
          have hews : isPySpace e = true := by
            have := @dropWhile_head_false (fun d => !isPySpace d) _ _ _ (hrdef ▸ hre)
            simpa using this
          have hrws : collapseWs r = ' ' :: collapseWs (r2.dropWhile isPySpace) := by
            rw [hre, collapseWs_cons, if_pos hews]
          have hr2len : (r2.dropWhile isPySpace).length ≤ rest.length := by
            have h2 : (r2.dropWhile isPySpace).length ≤ r2.length := dropWhile_len_le _ _
            have h3 : r.length = r2.length + 1 := by rw [hre]; rfl
            omega
          have hih : joinSp (pySplit (r2.dropWhile isPySpace)) =
              pyStrip (collapseWs (r2.dropWhile isPySpace)) :=
            ih _ (by omega)
          have hsp2 : pySplit (r2.dropWhile isPySpace) = w2 :: ws2 := by
            have heq : pySplit r = pySplit (r2.dropWhile isPySpace) := by
              rw [hre, pySplit_cons, if_pos hews, ← pySplit_dropWhile r2]
            rw [← heq, hsp]
          have hw2ne : w2 ≠ [] :=
            pySplit_words_ne_nil r.length r (Nat.le_refl _) (by rw [hsp])
          have hjne : joinSp (w2 :: ws2) ≠ [] := joinSp_ne_nil hw2ne
          have hpy2 : pyStrip (collapseWs (r2.dropWhile isPySpace)) =
              stripR (collapseWs (r2.dropWhile isPySpace)) := by
            apply collapseWs_head_nonws_strip
            intro d hd
            cases hdw2 : r2.dropWhile isPySpace with
            | nil => rw [hdw2] at hd; cases hd
            | cons d2 t =>
              rw [hdw2, List.head?_cons, Option.some_inj] at hd
              subst hd
              exact dropWhile_head_false hdw2
          have hstrip_eq : stripR (collapseWs (r2.dropWhile isPySpace)) =
              joinSp (w2 :: ws2) := by
            rw [← hpy2, ← hih, hsp2]
          have hstrip_ne : stripR (collapseWs (r2.dropWhile isPySpace)) ≠ [] := by
            rw [hstrip_eq]
            exact hjne
          have hsp_space : stripR (' ' :: collapseWs (r2.dropWhile isPySpace)) =
              ' ' :: stripR (collapseWs (r2.dropWhile isPySpace)) :=
            stripR_cons_of_ne hstrip_ne
          rw [hcoll, hrws]
          show (c :: w) ++ ' ' :: joinSp (w2 :: ws2) =
            stripR ((c :: w) ++ (' ' :: collapseWs (r2.dropWhile isPySpace)))
          rw [stripR_append_of_ne (by rw [hsp_space]; simp) (c :: w)]
          rw [hsp_space, hstrip_eq]

/-! Pipeline plumbing: how each stage transforms columns, row counts and
row contents. -/

theorem rowGet_none_of_not_mem {n : String} {r : Row}
    (h : n ∉ r.map Prod.fst) : rowGet n r = none := by
  induction r with
  | nil => rfl
  | cons p rest ih =>
    unfold rowGet
    rw [List.map_cons] at h
    rw [if_neg (fun he => h (by rw [he]; exact List.mem_cons_self _ _))]
    exact ih (fun hm => h (List.mem_cons_of_mem _ hm))

theorem rowGet_mem {n : String} {r : Row} {c : Cell}
    (h : rowGet n r = some c) : (n, c) ∈ r := by
  induction r with
  | nil => cases h
  | cons p rest ih =>
    unfold rowGet at h
    by_cases he : p.1 = n
    · rw [if_pos he] at h
      rw [Option.some_inj] at h
      subst h
      rw [← he]
      exact List.mem_cons_self _ _
    · rw [if_neg he] at h
      exact List.mem_cons_of_mem _ (ih h)

theorem dropByNames_cols (t : Table) (ns : List String) :
    (dropByNames t ns).cols = t.cols.filter (fun c => !(decide (c ∈ ns))) := rfl

theorem dropByNames_not_mem {t : Table} {ns : List String} {c : String}
    (h : c ∉ t.cols) : c ∉ (dropByNames t ns).cols := by
  rw [dropByNames_cols]
  intro hm
  exact h (List.mem_of_mem_filter hm)

theorem drop_constant_features_not_mem {t : Table} {c : String}
    (h : c ∉ t.cols) : c ∉ (drop_constant_features t).cols :=
  dropByNames_not_mem (dropByNames_not_mem h)

theorem fill_cols (t : Table) : (fill_missing_values t).cols = t.cols := rfl

theorem mapTextCol_cols (t : Table) (n : String) : (mapTextCol t n).cols = t.cols := rfl

theorem ptc_cons (t : Table) (n : String) (tcs : List String) :
    preprocess_text_columns t (n :: tcs) =
      preprocess_text_columns (if n ∈ t.cols then mapTextCol t n else t) tcs := by
  unfold preprocess_text_columns
  rw [List.foldl_cons]

theorem ptc_cols (tcs : List String) : ∀ (t : Table),
    (preprocess_text_columns t tcs).cols = t.cols := by
  induction tcs with
  | nil => intro t; rfl
  | cons n rest ih =>
    intro t
    rw [ptc_cons, ih]
    by_cases h : n ∈ t.cols
    · rw [if_pos h, mapTextCol_cols]
    · rw [if_neg h]

theorem dropByNames_rows_length (t : Table) (ns : List String) :
    (dropByNames t ns).rows.length = t.rows.length := by
  unfold dropByNames
  simp

theorem fill_rows_length (t : Table) :
    (fill_missing_values t).rows.length = t.rows.length := by
  unfold fill_missing_values
  simp

theorem mapTextCol_rows_length (t : Table) (n : String) :
    (mapTextCol t n).rows.length = t.rows.length := by
  unfold mapTextCol
  simp

theorem ptc_rows_length (tcs : List String) : ∀ (t : Table),
    (preprocess_text_columns t tcs).rows.length = t.rows.length := by
  induction tcs with
  | nil => intro t; rfl
  | cons n rest ih =>
    intro t
    rw [ptc_cons, ih]
    by_cases h : n ∈ t.cols
    · rw [if_pos h, mapTextCol_rows_length]
    · rw [if_neg h]

theorem fill_rowAllSome (t : Table) :
    ∀ r ∈ (fill_missing_values t).rows, rowAllSome r := by
  intro r hr
  unfold fill_missing_values at hr
  obtain ⟨r0, _, hmap⟩ := List.mem_map.mp hr
  subst hmap
  intro p hp
  obtain ⟨p0, _, hp0⟩ := List.mem_map.mp hp
  subst hp0
  rfl

theorem mapTextCol_rowAllSome {t : Table} {n : String}
    (h : ∀ r ∈ t.rows, rowAllSome r) :
    ∀ r ∈ (mapTextCol t n).rows, rowAllSome r := by
  intro r hr
  unfold mapTextCol at hr
  obtain ⟨r0, hr0, hmap⟩ := List.mem_map.mp hr
  subst hmap
  intro p hp
  obtain ⟨p0, hp0m, hp0⟩ := List.mem_map.mp hp
  subst hp0
  by_cases hn : p0.1 = n
  · rw [if_pos hn]
    rfl
  · rw [if_neg hn]
    exact h r0 hr0 p0 hp0m

theorem ptc_rowAllSome (tcs : List String) : ∀ (t : Table),
    (∀ r ∈ t.rows, rowAllSome r) →
    ∀ r ∈ (preprocess_text_columns t tcs).rows, rowAllSome r := by
  induction tcs with
  | nil => intro t h; exact h
  | cons n rest ih =>
    intro t h
    rw [ptc_cons]
    by_cases hc : n ∈ t.cols
    · rw [if_pos hc]
      exact ih _ (mapTextCol_rowAllSome h)
    · rw [if_neg hc]
      exact ih _ h

/-- Filtering a row by key membership filters its key list. -/
theorem map_fst_filter_key (ns : List String) (r : Row) :
    (r.filter (fun p => !(decide (p.1 ∈ ns)))).map Prod.fst =
      (r.map Prod.fst).filter (fun c => !(decide (c ∈ ns))) := by
  induction r with
  | nil => rfl
  | cons p rest ih =>
    by_cases h : p.1 ∈ ns
    · simp [List.filter_cons, h, ih]
    · simp [List.filter_cons, h, ih]

/-- `dropByNames` preserves row/header agreement. -/
theorem dropByNames_wf {t : Table}
    (hwf : ∀ r ∈ t.rows, r.map Prod.fst = t.cols) (ns : List String) :
    ∀ r ∈ (dropByNames t ns).rows, r.map Prod.fst = (dropByNames t ns).cols := by
  intro r hr
  unfold dropByNames at hr ⊢
  obtain ⟨r0, hr0, hmap⟩ := List.mem_map.mp hr
  subst hmap
  rw [map_fst_filter_key ns r0, hwf r0 hr0]

/-- `fillna('')` preserves row/header agreement. -/
theorem fill_wf {t : Table}
    (hwf : ∀ r ∈ t.rows, r.map Prod.fst = t.cols) :
    ∀ r ∈ (fill_missing_values t).rows,
      r.map Prod.fst = (fill_missing_values t).cols := by
  intro r hr
  unfold fill_missing_values at hr
  obtain ⟨r0, hr0, hmap⟩ := List.mem_map.mp hr
  subst hmap
  rw [fill_cols, List.map_map]
  rw [← hwf r0 hr0]
  apply List.map_congr_left
  intro p _
  rfl

/-- Normalizing a column preserves row/header agreement. -/
theorem mapTextCol_wf {t : Table} {n : String}
    (hwf : ∀ r ∈ t.rows, r.map Prod.fst = t.cols) :
    ∀ r ∈ (mapTextCol t n).rows, r.map Prod.fst = (mapTextCol t n).cols := by
  intro r hr
  unfold mapTextCol at hr
  obtain ⟨r0, hr0, hmap⟩ := List.mem_map.mp hr
  subst hmap
  rw [mapTextCol_cols, List.map_map]
  rw [← hwf r0 hr0]
  apply List.map_congr_left
  intro p _
  by_cases h : p.1 = n
  · simp only [Function.comp, if_pos h]
  · simp only [Function.comp, if_neg h]

/-- Stage 4 as a whole preserves row/header agreement. -/
theorem ptc_wf (tcs : List String) : ∀ (t : Table),
    (∀ r ∈ t.rows, r.map Prod.fst = t.cols) →
    ∀ r ∈ (preprocess_text_columns t tcs).rows,
      r.map Prod.fst = (preprocess_text_columns t tcs).cols := by
  induction tcs with
  | nil => intro t hwf; exact hwf
  | cons n rest ih =>
    intro t hwf
    rw [ptc_cons]
    by_cases h : n ∈ t.cols
    · rw [if_pos h]
      exact ih _ (mapTextCol_wf hwf)
    · rw [if_neg h]
      exact ih _ hwf

/-- A column absent from the table can be struck from the stage-4 text
column list without changing the result: the absent column's iteration
is a no-op. -/
theorem ptc_erase (tcs : List String) : ∀ (u : Table) (c : String), c ∉ u.cols →
    preprocess_text_columns u tcs = preprocess_text_columns u (tcs.erase c) := by
  induction tcs with
  | nil => intro u c _; rfl
  | cons n rest ih =>
    intro u c hc
    by_cases h : n = c
    · subst h
      rw [List.erase_cons_head]
      rw [ptc_cons, if_neg hc]
    · rw [List.erase_cons_tail (by simp [h])]
      rw [ptc_cons, ptc_cons]
      by_cases hm : n ∈ u.cols
      · rw [if_pos hm]
        exact ih _ c (by rw [mapTextCol_cols]; exact hc)
      · rw [if_neg hm]
        exact ih _ c hc

/-- On a row with only concrete cells that lacks any one of the six keys
read by the Soup Builder, `combine_text` raises the missing-column
error. -/
theorem combine_text_missing_any {r : Row} {n : String}
    (hn : n ∈ soupColumns) (hnone : rowGet n r = none)
    (hsome : rowAllSome r) :
    combine_text r = .error .missingColumn := by
  have hget : ∀ m, (getVal m r = .error PErr.missingColumn ∧ rowGet m r = none) ∨
      ∃ v, getVal m r = .ok v ∧ rowGet m r = some (some v) := by
    intro m
    unfold getVal
    cases hm : rowGet m r with
    | none => left; exact ⟨rfl, rfl⟩
    | some c =>
      cases c with
      | none =>
        have := hsome _ (rowGet_mem hm)
        cases this
      | some v => right; exact ⟨v, rfl, rfl⟩
  unfold combine_text
  rcases hget "subject_areas" with ⟨h1, hr1⟩ | ⟨v1, h1, hr1⟩
  · rw [h1]; rfl
  rw [h1]
  rcases hget "intended_audiences" with ⟨h2, hr2⟩ | ⟨v2, h2, hr2⟩
  · rw [h2]; rfl
  rw [h2]
  rcases hget "resource_name" with ⟨h3, hr3⟩ | ⟨v3, h3, hr3⟩
  · rw [h3]; rfl
  rw [h3]
  rcases hget "description" with ⟨h4, hr4⟩ | ⟨v4, h4, hr4⟩
  · rw [h4]; rfl
  rw [h4]
  rcases hget "type" with ⟨h5, hr5⟩ | ⟨v5, h5, hr5⟩
  · rw [h5]; rfl
  rw [h5]
  rcases hget "authoring_organization" with ⟨h6, hr6⟩ | ⟨v6, h6, hr6⟩
  · rw [h6]; rfl
  exfalso
  simp only [soupColumns, List.mem_cons, List.not_mem_nil, or_false] at hn
  rcases hn with rfl | rfl | rfl | rfl | rfl | rfl
  · rw [hnone] at hr3; cases hr3
  · rw [hnone] at hr4; cases hr4
  · rw [hnone] at hr1; cases hr1
  · rw [hnone] at hr5; cases hr5
  · rw [hnone] at hr2; cases hr2
  · rw [hnone] at hr6; cases hr6

theorem mapExcept_cons_err {f : Row → Except PErr Val} {r : Row} {rs : List Row}
    {e : PErr} (h : f r = .error e) : mapExcept f (r :: rs) = .error e := by
  unfold mapExcept
  rw [h]
  rfl

theorem create_content_soup_err {t : Table} {r : Row} {rs : List Row}
    (hrows : t.rows = r :: rs) (h : combine_text r = .error PErr.missingColumn) :
    create_content_soup t = .error PErr.missingColumn := by
  unfold create_content_soup
  rw [hrows, mapExcept_cons_err h]
  rfl

/-! Column-pruner membership characterization. -/

theorem dropByNames_mem_iff {t : Table} {ns : List String} {c : String} :
    c ∈ (dropByNames t ns).cols ↔ c ∈ t.cols ∧ c ∉ ns := by
  rw [dropByNames_cols, List.mem_filter]
  simp only [Bool.not_eq_true', decide_eq_false_iff_not]

theorem constantCols_mem_iff {t : Table} {c : String} :
    c ∈ constantCols t ↔ c ∈ t.cols ∧ nearConstant (colCells t c) = true := by
  unfold constantCols
  rw [List.mem_filter]

theorem dcf_mem_iff {t : Table} {c : String} :
    c ∈ (drop_constant_features t).cols ↔
      c ∈ t.cols ∧ ¬ topFrac (colCells t c) > 95 / 100 ∧ c ∉ metadataCols := by
  unfold drop_constant_features
  rw [dropByNames_mem_iff, dropByNames_mem_iff, constantCols_mem_iff,
    ← nearConstant_iff_topFrac]
  constructor
  · rintro ⟨⟨hc, hnc⟩, hm⟩
    refine ⟨hc, ?_, hm⟩
    intro hn
    exact hnc ⟨hc, hn⟩
  · rintro ⟨hc, hnc, hm⟩
    exact ⟨⟨hc, fun h => hnc h.2⟩, hm⟩

/-! Null-filler facts. -/

theorem fillCell_idem (c : Cell) : fillCell (fillCell c) = fillCell c := by
  cases c <;> rfl

theorem fill_idem (t : Table) :
    fill_missing_values (fill_missing_values t) = fill_missing_values t := by
  unfold fill_missing_values
  cases t with
  | mk cols rows =>
    simp only [Table.mk.injEq, true_and]
    rw [List.map_map]
    apply List.map_congr_left
    intro r _
    rw [Function.comp_apply, List.map_map]
    apply List.map_congr_left
    intro p _
    rw [Function.comp_apply, fillCell_idem]

theorem fill_cellAt (t : Table) (i j : Nat) :
    cellAt (fill_missing_values t) i j =
      (cellAt t i j).map (fun p => (p.1, fillCell p.2)) := by
  unfold cellAt fill_missing_values
  simp only [List.getElem?_map]
  cases t.rows[i]? with
  | none => rfl
  | some r =>
    simp only [Option.map_some', Option.some_bind, List.getElem?_map]

/-! Soup-builder row facts. -/

theorem rowGet_append_self {n : String} {r : Row} {c : Cell}
    (h : rowGet n r = none) : rowGet n (r ++ [(n, c)]) = some c := by
  induction r with
  | nil =>
    show (if n = n then some c else rowGet n []) = some c
    rw [if_pos rfl]
  | cons p rest ih =>
    unfold rowGet at h ⊢
    by_cases he : p.1 = n
    · rw [if_pos he] at h
      cases h
    · rw [List.cons_append]
      show (if p.1 = n then some p.2 else rowGet n (rest ++ [(n, c)])) = some c
      rw [if_neg he]
      rw [if_neg he] at h
      exact ih h

theorem rowGet_map_replace {n : String} {r : Row} {v : Val}
    (h : (rowGet n r).isSome = true) :
    rowGet n (r.map (fun p => if p.1 = n then (p.1, some v) else p)) = some (some v) := by
  induction r with
  | nil => cases h
  | cons p rest ih =>
    rw [List.map_cons]
    by_cases he : p.1 = n
    · rw [if_pos he]
      show (if p.1 = n then some (some v) else _) = some (some v)
      rw [if_pos he]
    · rw [if_neg he]
      show (if p.1 = n then some p.2 else _) = some (some v)
      rw [if_neg he]
      unfold rowGet at h
      rw [if_neg he] at h
      exact ih h

theorem rowGet_setRowCell (r : Row) (n : String) (v : Val) :
    rowGet n (setRowCell r n v) = some (some v) := by
  unfold setRowCell
  by_cases h : (rowGet n r).isSome = true
  · rw [if_pos h]
    exact rowGet_map_replace h
  · rw [if_neg h]
    rw [Bool.not_eq_true, Option.not_isSome, Option.isNone_iff_eq_none] at h
    exact rowGet_append_self h

theorem mapExcept_ok_nth {f : Row → Except PErr Val} :
    ∀ {rs : List Row} {vs : List Val}, mapExcept f rs = .ok vs →
    vs.length = rs.length ∧
    ∀ (i : Nat) (r : Row), rs[i]? = some r → ∃ v, f r = .ok v ∧ vs[i]? = some v := by
  intro rs
  induction rs with
  | nil =>
    intro vs h
    unfold mapExcept at h
    cases h
    refine ⟨rfl, ?_⟩
    intro i r hr
    simp at hr
  | cons r0 rest ih =>
    intro vs h
    unfold mapExcept at h
    cases hf : f r0 with
    | error e => rw [hf] at h; cases h
    | ok v0 =>
      rw [hf] at h
      cases hm : mapExcept f rest with
      | error e =>
        rw [hm] at h
        cases h
      | ok vrest =>
        rw [hm] at h
        have hvs : vs = v0 :: vrest := by
          cases h
          rfl
        subst hvs
        obtain ⟨hlen, hnth⟩ := ih hm
        refine ⟨by simp [hlen], ?_⟩
        intro i r hr
        match i with
        | 0 =>
          simp only [List.getElem?_cons_zero, Option.some_inj] at hr ⊢
          subst hr
          exact ⟨v0, hf, rfl⟩
        | k + 1 =>
          simp only [List.getElem?_cons_succ] at hr ⊢
          exact hnth k r hr

/-! Double spaces from empty soup fields. -/

theorem noDbl_append_dbl (B : Val) : ∀ (A : Val),
    noDbl (A ++ ' ' :: ' ' :: B) = false := by
  intro A
  induction A with
  | nil =>
    rw [List.nil_append, noDbl_two]
    simp
  | cons a A2 ih =>
    rw [List.cons_append]
    rw [← Bool.not_eq_true]
    intro h
    rw [← Bool.not_eq_true] at ih
    exact ih (noDbl_of_cons h)

theorem lastIsSpace_append (A : Val) {B : Val} (h : lastIsSpace B = true) :
    lastIsSpace (A ++ B) = true := by
  induction A with
  | nil => exact h
  | cons a A2 ih =>
    unfold lastIsSpace at ih ⊢
    rw [List.cons_append]
    have hBne : A2 ++ B ≠ [] := by
      intro h0
      unfold lastIsSpace at h
      have : B = [] := (List.append_eq_nil.mp h0).2
      rw [this] at h
      simp at h
    cases hAB : A2 ++ B with
    | nil => exact absurd hAB hBne
    | cons d r =>
      rw [List.getLast?_cons_cons, ← hAB]
      exact ih

theorem dcf_rows_length (t : Table) :
    (drop_constant_features t).rows.length = t.rows.length := by
  unfold drop_constant_features
  rw [dropByNames_rows_length, dropByNames_rows_length]

theorem getVal_some {n : String} {r : Row} {v : Val}
    (h : rowGet n r = some (some v)) : getVal n r = .ok v := by
  unfold getVal
  rw [h]

theorem sjoin_eq_amended (v : Val) : sjoin v = sjoinAmended v := by
  unfold sjoin sjoinAmended
  exact joinSp_pySplit_eq_strip_collapse (semiRepl v).length _ (Nat.le_refl _)

/-! The ten claims. -/

/-- C1 (counterexample): a column whose top-value fraction computed with
missing values counted as a normal value is ≤ 0.95 and that is not in the
metadata denylist is nevertheless removed by `drop_constant_features`,
because `value_counts` excludes missing values from the computation. -/
theorem claim_C1_counterexample :
    topFracWithMissing (colCells tblSkew "v") ≤ 95 / 100 ∧
    "v" ∉ metadataCols ∧ "v" ∈ tblSkew.cols ∧
    "v" ∉ (drop_constant_features tblSkew).cols := by
  refine ⟨?_, by decide, by decide, by decide⟩
  have h1 : maxCountAll (colCells tblSkew "v") = 20 := by decide
  have h2 : (colCells tblSkew "v").length = 22 := by decide
  unfold topFracWithMissing
  rw [h1, h2]
  norm_num

/-- C1 (amended): the Column Pruner retains a column exactly when its
top-value fraction computed over the non-missing cells only is ≤ 0.95
and its name is not in the fixed metadata denylist; equivalently a
column is removed exactly when that fraction exceeds 0.95 or the column
is denylisted. -/
theorem claim_C1 (t : Table) (c : String) :
    c ∈ (drop_constant_features t).cols ↔
      c ∈ t.cols ∧ ¬ topFrac (colCells t c) > 95 / 100 ∧ c ∉ metadataCols :=
  dcf_mem_iff

/-- C2 (counterexample): the text normalizer is not idempotent; on
`"x a b y"` the first pass yields `"b y"` and a second pass strips the
leading `b`, yielding `"y"`. -/
theorem claim_C2_counterexample :
    preprocess_individual_text (preprocess_individual_text (strL "x a b y")) ≠
      preprocess_individual_text (strL "x a b y") := by decide

/-- C2 (amended): the normalizer is idempotent at every input whose
normalized form contains no isolated-single-letter pattern and does not
begin with a letter followed by whitespace; in general a second
application can remove further single-letter tokens. -/
theorem claim_C2 (s : Val)
    (h1 : isoFree (preprocess_individual_text s) = true)
    (h2 : startsAlphaWs (preprocess_individual_text s) = false) :
    preprocess_individual_text (preprocess_individual_text s) =
      preprocess_individual_text s := by
  apply normalize_fixpoint
  · exact fun c hc => normalize_word_or_space c hc
  · exact normalize_noDbl s
  · exact fun c hc => normalize_lower_fixed c hc
  · exact fun c hc => normalize_head_not_space s hc
  · exact fun c hc => normalize_getLast_not_space s hc
  · exact h1
  · exact h2

theorem claim_C2_witness :
    isoFree (preprocess_individual_text (strL "hello world")) = true ∧
    startsAlphaWs (preprocess_individual_text (strL "hello world")) = false ∧
    preprocess_individual_text (preprocess_individual_text (strL "hello world")) =
      preprocess_individual_text (strL "hello world") :=
  ⟨by decide, by decide, claim_C2 (strL "hello world") (by decide) (by decide)⟩

/-- C3 (counterexample): the normalizer's charset guarantee fails on
non-ASCII input: Python's `\W` keeps Unicode word characters and
`str.lower` keeps them non-ASCII, so `normalize("café") = "café"`, which
contains a character outside `[a-z0-9_ ]`. -/
theorem claim_C3_counterexample :
    preprocess_individual_text (strL "café") = strL "café" ∧
    ((preprocess_individual_text (strL "café")).all allowedChar) = false ∧
    normalizedForm (preprocess_individual_text (strL "café")) = false := by
  refine ⟨by decide, by decide, by decide⟩

/-- C3 (amended): for every input string of ASCII characters, the
normalizer's output consists only of characters from `[a-z0-9_ ]`, with
single separating spaces and no leading or trailing whitespace; on
general input, non-ASCII word characters can survive into the output. -/
theorem claim_C3 (s : Val) (ha : ∀ c ∈ s, c.toNat < 128) :
    normalizedForm (preprocess_individual_text s) = true := by
  unfold normalizedForm
  rw [Bool.and_eq_true, Bool.and_eq_true, Bool.and_eq_true]
  refine ⟨⟨⟨?_, ?_⟩, ?_⟩, ?_⟩
  · rw [List.all_eq_true]
    intro c hc
    exact normalize_allowed_of_ascii ha c hc
  · exact normalize_noDbl s
  · rw [Bool.not_eq_true', beq_eq_false_iff_ne]
    intro h
    have := normalize_head_not_space s h
    rw [space_isPySpace] at this
    cases this
  · rw [Bool.not_eq_true', beq_eq_false_iff_ne]
    intro h
    have := normalize_getLast_not_space s h
    rw [space_isPySpace] at this
    cases this

theorem claim_C3_witness :
    (∀ c ∈ strL "Hello, World!", c.toNat < 128) ∧
    normalizedForm (preprocess_individual_text (strL "Hello, World!")) = true :=
  ⟨by decide, claim_C3 (strL "Hello, World!") (by decide)⟩

/-- C4 (counterexample): on a row whose `subject_areas` is `";a"` the
Soup Builder yields `"n d a t i o"`, while the claim's transform —
`;` to space and whitespace runs collapsed, without trimming — yields a
double space, so the two disagree. -/
theorem claim_C4_counterexample :
    combine_text rowSemi = Except.ok (strL "n d a t i o") ∧
    specContentSoupClaim (strL "n") (strL "d") (strL ";a") (strL "t")
      (strL "i") (strL "o") ≠ strL "n d a t i o" := by
  constructor
  · decide
  · decide

/-- C4 (amended): for every row holding the six source columns, the Soup
Builder's value is the fixed-order concatenation separated by single
spaces, where the two list-like fields have `;` replaced by a space,
whitespace runs collapsed to single spaces, and leading/trailing
whitespace removed. -/
theorem claim_C4 (r : Row) (rn de sa ty ia ao : Val)
    (h1 : rowGet "subject_areas" r = some (some sa))
    (h2 : rowGet "intended_audiences" r = some (some ia))
    (h3 : rowGet "resource_name" r = some (some rn))
    (h4 : rowGet "description" r = some (some de))
    (h5 : rowGet "type" r = some (some ty))
    (h6 : rowGet "authoring_organization" r = some (some ao)) :
    combine_text r = .ok (specContentSoupAmended rn de sa ty ia ao) ∧
    ∀ (t t' : Table), t.rows = [r] → create_content_soup t = .ok t' →
      ∃ r', t'.rows = [r'] ∧
        rowGet "content_soup" r' =
          some (some (specContentSoupAmended rn de sa ty ia ao)) := by
  have hspec : soupExpr rn de sa ty ia ao = specContentSoupAmended rn de sa ty ia ao := by
    unfold soupExpr specContentSoupAmended
    rw [sjoin_eq_amended sa, sjoin_eq_amended ia]
  have hcomb : combine_text r = .ok (specContentSoupAmended rn de sa ty ia ao) := by
    unfold combine_text
    rw [getVal_some h1, getVal_some h2, getVal_some h3, getVal_some h4,
      getVal_some h5, getVal_some h6, ← hspec]
    rfl
  refine ⟨hcomb, ?_⟩
  intro t t' hrows hok
  have hmap : mapExcept combine_text [r] =
      .ok [specContentSoupAmended rn de sa ty ia ao] := by
    unfold mapExcept
    rw [hcomb]
    rfl
  unfold create_content_soup at hok
  rw [hrows, hmap] at hok
  have ht' := Except.ok.inj hok
  refine ⟨setRowCell r "content_soup" (specContentSoupAmended rn de sa ty ia ao),
    ?_, rowGet_setRowCell _ _ _⟩
  rw [← ht']
  rfl

theorem claim_C4_witness :
    combine_text rowSemi = .ok (specContentSoupAmended (strL "n") (strL "d")
      (strL ";a") (strL "t") (strL "i") (strL "o")) :=
  (claim_C4 rowSemi (strL "n") (strL "d") (strL ";a") (strL "t") (strL "i") (strL "o")
    (by decide) (by decide) (by decide) (by decide) (by decide) (by decide)).1

/-- C5 (counterexample): on the scenario row, stage-4 normalization
followed by soup-building does not produce the claimed string
`"medx a great tool a b c video students nurses acme corp"`: the
normalizer deletes the isolated letters and the leading letters. -/
theorem claim_C5_counterexample :
    ((create_content_soup (preprocess_text_columns tblScenario text_columns)).toOption.map
      (fun u => colCells u "content_soup")) ≠
    some [some (strL "medx a great tool a b c video students nurses acme corp")] := by
  decide

/-- C5 (amended): on the scenario row, stage-4 normalization followed by
stage-5 soup building yields
`content_soup = "medx great tool c video students nurses acme corp"`. -/
theorem claim_C5 :
    ((create_content_soup (preprocess_text_columns tblScenario text_columns)).toOption.map
      (fun u => colCells u "content_soup")) =
    some [some (strL "medx great tool c video students nurses acme corp")] := by
  decide

/-- C6: if any of the six source columns required by the Soup Builder is
absent from the table reaching stage 5, the pipeline aborts with the
missing-column error (Python `KeyError`, the spec's `MissingColumnError`)
and no output file is written; by contrast, any text column absent from
the table at the normalization stage is silently skipped there: striking
it from the stage-4 column list changes nothing. -/
theorem claim_C6 (t : Table) (n : String)
    (hwf : ∀ r ∈ t.rows, r.map Prod.fst = t.cols)
    (hn : n ∈ soupColumns)
    (hmiss : n ∉ (preprocess_text_columns (fill_missing_values
      (drop_constant_features t)) text_columns).cols)
    (hne : t.rows ≠ []) :
    pipelineFromLoaded t = .error PErr.missingColumn ∧
    writtenOutput t = none ∧
    ∀ (u : Table) (tcs : List String) (c : String), c ∉ u.cols →
      preprocess_text_columns u tcs = preprocess_text_columns u (tcs.erase c) := by
  have hwf1 : ∀ r ∈ (drop_constant_features t).rows,
      r.map Prod.fst = (drop_constant_features t).cols :=
    dropByNames_wf (dropByNames_wf hwf (constantCols t)) metadataCols
  have hwf2 : ∀ r ∈ (fill_missing_values (drop_constant_features t)).rows,
      r.map Prod.fst = (fill_missing_values (drop_constant_features t)).cols :=
    fill_wf hwf1
  have hwf3 : ∀ r ∈ (preprocess_text_columns (fill_missing_values
      (drop_constant_features t)) text_columns).rows,
      r.map Prod.fst = (preprocess_text_columns (fill_missing_values
      (drop_constant_features t)) text_columns).cols :=
    ptc_wf _ _ hwf2
  have hsome3 : ∀ r' ∈ (fill_missing_values (drop_constant_features t)).rows,
      rowAllSome r' :=
    fill_rowAllSome _
  have hsome4 : ∀ r' ∈ (preprocess_text_columns
      (fill_missing_values (drop_constant_features t)) text_columns).rows, rowAllSome r' :=
    ptc_rowAllSome _ _ hsome3
  have hlen : (preprocess_text_columns
      (fill_missing_values (drop_constant_features t)) text_columns).rows.length =
      t.rows.length := by
    rw [ptc_rows_length, fill_rows_length, dcf_rows_length]
  have hne4 : (preprocess_text_columns
      (fill_missing_values (drop_constant_features t)) text_columns).rows ≠ [] := by
    intro h0
    apply hne
    rw [h0] at hlen
    exact List.length_eq_zero.mp hlen.symm
  obtain ⟨r, rs, hr⟩ := List.exists_cons_of_ne_nil hne4
  have hrmem : r ∈ (preprocess_text_columns
      (fill_missing_values (drop_constant_features t)) text_columns).rows := by
    rw [hr]
    exact List.mem_cons_self _ _
  have hrn : rowGet n r = none := by
    apply rowGet_none_of_not_mem
    rw [hwf3 r hrmem]
    exact hmiss
  have hcomb : combine_text r = .error PErr.missingColumn :=
    combine_text_missing_any hn hrn (hsome4 r hrmem)
  have hstage : pipelineFromLoaded t = .error PErr.missingColumn :=
    create_content_soup_err hr hcomb
  refine ⟨hstage, ?_, ?_⟩
  · unfold writtenOutput
    rw [hstage]
    rfl
  · intro u tcs c hc
    exact ptc_erase tcs u c hc

theorem claim_C6_witness :
    pipelineFromLoaded tblNoDesc = .error PErr.missingColumn ∧
    writtenOutput tblNoDesc = none ∧
    ∀ (u : Table) (tcs : List String) (c : String), c ∉ u.cols →
      preprocess_text_columns u tcs = preprocess_text_columns u (tcs.erase c) :=
  claim_C6 tblNoDesc "description" (by decide) (by decide) (by decide) (by decide)

/-- C7: the Null Filler is idempotent, keeps the column set, and maps
each cell to itself when concrete (including the empty string) and to
the empty string when missing. -/
theorem claim_C7 (t : Table) :
    fill_missing_values (fill_missing_values t) = fill_missing_values t ∧
    (fill_missing_values t).cols = t.cols ∧
    ∀ i j, cellAt (fill_missing_values t) i j =
      (cellAt t i j).map (fun p => (p.1, some (p.2.getD []))) :=
  ⟨fill_idem t, rfl, fun i j => fill_cellAt t i j⟩

/-- C8: a column all of whose cells are missing is not marked
near-constant (the fraction is computed over zero non-missing values and
the threshold comparison is false), so the pruner retains it when it is
not denylisted. -/
theorem claim_C8 (t : Table) (c : String)
    (h1 : c ∈ t.cols)
    (h2 : ∀ cell ∈ colCells t c, cell = none)
    (h3 : c ∉ metadataCols) :
    c ∈ (drop_constant_features t).cols ∧ nearConstant (colCells t c) = false := by
  have hnm : nonMissing (colCells t c) = [] := by
    unfold nonMissing
    rw [List.filterMap_eq_nil]
    intro a ha
    rw [h2 a ha]
    rfl
  constructor
  · rw [dcf_mem_iff]
    refine ⟨h1, ?_, h3⟩
    unfold topFrac
    rw [hnm]
    norm_num [maxCount]
  · unfold nearConstant
    rw [hnm]
    rfl

theorem claim_C8_witness :
    "v" ∈ (drop_constant_features tblAllMissing).cols ∧
    nearConstant (colCells tblAllMissing "v") = false :=
  claim_C8 tblAllMissing "v" (by decide) (by decide) (by decide)

/-- C9: when one of the six source fields is the empty string, the Soup
Builder still inserts its single-space separators, so the soup has a
leading space, a trailing space, or two adjacent spaces — it is never
whitespace-collapsed as a whole. -/
theorem claim_C9 (rn de sa ty ia ao : Val)
    (h : rn = [] ∨ de = [] ∨ sa = [] ∨ ty = [] ∨ ia = [] ∨ ao = []) :
    headIsSpace (soupExpr rn de sa ty ia ao) = true ∨
    noDbl (soupExpr rn de sa ty ia ao) = false ∨
    lastIsSpace (soupExpr rn de sa ty ia ao) = true := by
  rcases h with h | h | h | h | h | h
  · left
    subst h
    rfl
  · right; left
    subst h
    have hdbl := noDbl_append_dbl
      (sjoin sa ++ ' ' :: (ty ++ ' ' :: (sjoin ia ++ ' ' :: ao))) rn
    simpa [soupExpr, List.append_assoc] using hdbl
  · right; left
    subst h
    have hdbl := noDbl_append_dbl
      (ty ++ ' ' :: (sjoin ia ++ ' ' :: ao)) (rn ++ ' ' :: de)
    simpa [soupExpr, sjoin, semiRepl, pySplit_nil, joinSp, List.append_assoc] using hdbl
  · right; left
    subst h
    have hdbl := noDbl_append_dbl
      (sjoin ia ++ ' ' :: ao) (rn ++ ' ' :: de ++ ' ' :: sjoin sa)
    simpa [soupExpr, List.append_assoc] using hdbl
  · right; left
    subst h
    have hdbl := noDbl_append_dbl
      ao (rn ++ ' ' :: de ++ ' ' :: sjoin sa ++ ' ' :: ty)
    simpa [soupExpr, sjoin, semiRepl, pySplit_nil, joinSp, List.append_assoc] using hdbl
  · right; right
    subst h
    have hlast := @lastIsSpace_append
      (rn ++ ' ' :: de ++ ' ' :: sjoin sa ++ ' ' :: ty ++ ' ' :: sjoin ia) [' '] rfl
    simpa [soupExpr, List.append_assoc] using hlast

theorem claim_C9_witness :
    headIsSpace (soupExpr (strL "n") [] (strL "s") (strL "t") (strL "i") (strL "o")) = true ∨
    noDbl (soupExpr (strL "n") [] (strL "s") (strL "t") (strL "i") (strL "o")) = false ∨
    lastIsSpace (soupExpr (strL "n") [] (strL "s") (strL "t") (strL "i") (strL "o")) = true :=
  claim_C9 (strL "n") [] (strL "s") (strL "t") (strL "i") (strL "o")
    (Or.inr (Or.inl rfl))

/-- C10: the non-overlapping isolated-letter substitution leaves the
second of two adjacent isolated letters in place: `"x a b y"`
normalizes to `"b y"`, whose tokens still include the single letters
`b` and `y`. -/
theorem claim_C10 :
    preprocess_individual_text (strL "x a b y") = strL "b y" ∧
    hasIsoLetterTok (preprocess_individual_text (strL "x a b y")) = true := by
  constructor
  · decide
  · decide

end Automate
